import Mathlib

/-!
Verification of the GLSLT template-instantiation core against its
natural-language specification.

The Rust sources are shallowly embedded: pure functions become Lean
functions, stateful code becomes explicit state passing, machine integers
become `Nat` with explicit reduction modulo `2 ^ 32` where overflow
matters, and fallible code returns `Option` or `Except`.  External
collaborators of the core (the SHA-1 hash, the GLSL pretty-printer and
the graph library) are modelled from their documented behaviour, which
the specification pins down.
-/

set_option maxRecDepth 200000
set_option maxHeartbeats 1600000

namespace Glslt

/-! ## Syntax model

A fragment of the GLSL expression AST (`glsl::syntax::Expr`), large
enough for the constructs the transform code inspects: variables,
integer literals, binary operators and function calls whose callee is a
plain identifier (`FunIdentifier::Identifier`); the callee is not an
expression node, mirroring the Rust AST where visitors do not descend
from an `Expr` into the callee. -/

inductive Expr where
  | intConst (value : Int)
  | var (name : String)
  | binary (op : String) (lhs rhs : Expr)
  | funCall (callee : String) (args : List Expr)
deriving Repr

/-- A function parameter declaration: either named or anonymous
(`FunctionParameterDeclaration::Named | Unnamed`).  The type is kept as
an opaque string payload since the claims never inspect it. -/
inductive FunParam where
  | named (ty : String) (ident : String)
  | unnamed (ty : String)
deriving Repr, DecidableEq

/-- `glsl::syntax::FunctionPrototype`: return type, name, parameters. -/
structure FunctionPrototype where
  retTy : String
  name : String
  parameters : List FunParam
deriving Repr, DecidableEq

/-! ## Pretty-printer model

Modelled from the spec: the GLSL pretty-printer collaborator
(`glsl::transpiler::glsl::show_expr` / `show_function_prototype`) is an
external crate, out of scope of the repository.  The spec only requires
that it serializes expressions and prototypes to a deterministic textual
form; we render the fragment above the way the `glsl` crate does:
integer literals in decimal, variables verbatim, binary operators
infix, calls as `callee(arg,...)`. -/

mutual

def showExpr : Expr → String
  | .intConst v => toString v
  | .var n => n
  | .binary op l r => showExpr l ++ op ++ showExpr r
  | .funCall n args => n ++ "(" ++ showExprArgs args ++ ")"

def showExprArgs : List Expr → String
  | [] => ""
  | [e] => showExpr e
  | e :: rest => showExpr e ++ "," ++ showExprArgs rest

end

/-- Modelled from the spec: pretty-printed form of a function prototype
(used by `Error::new_duplicate_pointer_definition`). -/
def showFunParam : FunParam → String
  | .named ty ident => ty ++ " " ++ ident
  | .unnamed ty => ty

def showParamList : List FunParam → String
  | [] => ""
  | [p] => showFunParam p
  | p :: rest => showFunParam p ++ ", " ++ showParamList rest

def prototype_to_string (p : FunctionPrototype) : String :=
  p.retTy ++ " " ++ p.name ++ "(" ++ showParamList p.parameters ++ ")"

/-! ## SHA-1

Modelled from the spec: the `sha1` crate is an external collaborator;
the spec fixes the algorithm as standard SHA-1 over the UTF-8 bytes,
rendered as lower-case hex.  This is the textbook SHA-1 over byte lists,
with 32-bit words represented as `Nat` reduced modulo `2 ^ 32`. -/

def m32 (n : Nat) : Nat := n % 4294967296

def rotl (s n : Nat) : Nat := m32 (n <<< s) ||| (n >>> (32 - s))

/-- Big-endian 64-bit byte encoding of a natural number. -/
def be64 (n : Nat) : List Nat :=
  [n >>> 56 % 256, n >>> 48 % 256, n >>> 40 % 256, n >>> 32 % 256,
   n >>> 24 % 256, n >>> 16 % 256, n >>> 8 % 256, n % 256]

/-- SHA-1 message padding: append `0x80`, zero bytes up to 56 mod 64,
then the bit length as a big-endian 64-bit quantity. -/
def sha1Pad (msg : List Nat) : List Nat :=
  let len := msg.length
  let zeros := (119 - len % 64) % 64
  msg ++ (128 :: List.replicate zeros 0) ++ be64 (len * 8)

/-- Split a byte list into 64-byte chunks (the input length is a
multiple of 64 after padding). -/
def chunks64Go : Nat → List Nat → List (List Nat)
  | 0, _ => []
  | _ + 1, [] => []
  | fuel + 1, l => l.take 64 :: chunks64Go fuel (l.drop 64)

def chunks64 (l : List Nat) : List (List Nat) := chunks64Go l.length l

/-- Combine four big-endian bytes into one 32-bit word. -/
def word32 (b0 b1 b2 b3 : Nat) : Nat :=
  ((b0 <<< 24) + (b1 <<< 16) + (b2 <<< 8) + b3)

/-- The 16 initial 32-bit words of a 64-byte block. -/
def blockWordsGo : Nat → List Nat → List Nat
  | 0, _ => []
  | fuel + 1, b0 :: b1 :: b2 :: b3 :: rest => word32 b0 b1 b2 b3 :: blockWordsGo fuel rest
  | _ + 1, _ => []

def blockWords (block : List Nat) : List Nat := blockWordsGo block.length block

/-- Extend 16 schedule words to 80: each new word is the previous words
at offsets 3, 8, 14 and 16 xored together and rotated left by one. -/
def sha1ExtendGo : Nat → List Nat → List Nat
  | 0, w => w
  | fuel + 1, w =>
    let n := w.length
    let x := ((w.getD (n - 3) 0) ^^^ (w.getD (n - 8) 0)) ^^^
      ((w.getD (n - 14) 0) ^^^ (w.getD (n - 16) 0))
    sha1ExtendGo fuel (w ++ [rotl 1 x])

def sha1Extend (w : List Nat) : List Nat := sha1ExtendGo 64 w

/-- One SHA-1 round: mixes schedule word `wi` at round `i` into the
five-word state. -/
def sha1Round (st : Nat × Nat × Nat × Nat × Nat) (i wi : Nat) :
    Nat × Nat × Nat × Nat × Nat :=
  let (a, b, c, d, e) := st
  let f :=
    if i < 20 then (b &&& c) ||| ((b ^^^ 4294967295) &&& d)
    else if i < 40 then (b ^^^ c) ^^^ d
    else if i < 60 then ((b &&& c) ||| (b &&& d)) ||| (c &&& d)
    else (b ^^^ c) ^^^ d
  let k :=
    if i < 20 then 1518500249
    else if i < 40 then 1859775393
    else if i < 60 then 2400959708
    else 3395469782
  let tmp := m32 (rotl 5 a + f + e + k + wi)
  (tmp, a, rotl 30 b, c, d)

/-- Process one 64-byte block, updating the five-word hash state. -/
def sha1Block (h : Nat × Nat × Nat × Nat × Nat) (block : List Nat) :
    Nat × Nat × Nat × Nat × Nat :=
  let w := sha1Extend (blockWords block)
  let (h0, h1, h2, h3, h4) := h
  let init : Nat × Nat × Nat × Nat × Nat := (h0, h1, h2, h3, h4)
  let fin := (List.range 80).foldl (fun st i => sha1Round st i (w.getD i 0)) init
  let (a, b, c, d, e) := fin
  (m32 (h0 + a), m32 (h1 + b), m32 (h2 + c), m32 (h3 + d), m32 (h4 + e))

/-- Big-endian bytes of a 32-bit word. -/
def wordBytes (n : Nat) : List Nat :=
  [n >>> 24 % 256, n >>> 16 % 256, n >>> 8 % 256, n % 256]

/-- SHA-1 digest of a byte list: 20 bytes. -/
def sha1 (msg : List Nat) : List Nat :=
  let init : Nat × Nat × Nat × Nat × Nat :=
    (1732584193, 4023233417, 2562383102, 271733878, 3285377520)
  let (h0, h1, h2, h3, h4) := (chunks64 (sha1Pad msg)).foldl sha1Block init
  wordBytes h0 ++ wordBytes h1 ++ wordBytes h2 ++ wordBytes h3 ++ wordBytes h4

def hexDigit (n : Nat) : Char :=
  if n < 10 then Char.ofNat (48 + n) else Char.ofNat (87 + n)

def byteHex (b : Nat) : String :=
  String.mk [hexDigit (b / 16), hexDigit (b % 16)]

/-- Lower-case hex rendering of a byte list. -/
def bytesHex (bs : List Nat) : String := (bs.map byteHex).foldl (· ++ ·) ""

/-- UTF-8 encoding of one character. -/
def utf8Char (c : Char) : List Nat :=
  let n := c.toNat
  if n < 128 then [n]
  else if n < 2048 then [192 + n / 64, 128 + n % 64]
  else if n < 65536 then [224 + n / 4096, 128 + n / 64 % 64, 128 + n % 64]
  else [240 + n / 262144, 128 + n / 4096 % 64, 128 + n / 64 % 64, 128 + n % 64]

/-- UTF-8 bytes of a string. -/
def utf8Bytes (s : String) : List Nat := (s.data.map utf8Char).flatten

/-! ## Template registry data model (`transform/template.rs`) -/

/-- `TemplateParameter`: pointer-type name, optional symbol, original
parameter index. -/
structure TemplateParameter where
  typename : String
  symbol : Option String
  index : Nat
deriving Repr, DecidableEq

/-- `glsl::syntax::FunctionDefinition`: a prototype plus a body; the
body is modelled as the list of expressions appearing in statement
order, which is all the transform visitors inspect. -/
structure FunctionDefinition where
  prototype : FunctionPrototype
  statement : List Expr
deriving Repr

/-- `TemplateDefinition`: the stripped AST plus the template
parameters. -/
structure TemplateDefinition where
  ast : FunctionDefinition
  parameters : List TemplateParameter
deriving Repr

/-- `template.rs::expr_vec_to_id`: transpile all expressions into one
string buffer, hash it with SHA-1, and keep the first 6 lower-case hex
characters. -/
def expr_vec_to_id (exprs : List Expr) : String :=
  let sbuf := (exprs.map showExpr).foldl (· ++ ·) ""
  (bytesHex (sha1 (utf8Bytes sbuf))).take 6

/-- Rust `[..].join(sep)`: interleave `sep` between the elements. -/
def rustJoin (sep : String) : List String → String
  | [] => ""
  | [x] => x
  | x :: rest => x ++ sep ++ rustJoin sep rest

/-- `TemplateDefinition::generate_id`: `["_glslt", name, args_id]`
joined with underscores. -/
def TemplateDefinition.generate_id (t : TemplateDefinition) (args : List Expr) : String :=
  let args_id := expr_vec_to_id args
  rustJoin "_" ["_glslt", t.ast.prototype.name, args_id]

/-- Modelled from the spec (§4.3, claim C1 reading): the mangled name
with a configurable prefix where `buf` is the concatenation, in order,
of each pointer-type name followed by the pretty-printed form of the
corresponding argument expression.  This follows the claim wording and
is compared against `TemplateDefinition.generate_id`, the embedding of
the source. -/
def spec_mangled_name (pfx : String) (t : TemplateDefinition)
    (args : List (Expr × String)) : String :=
  let buf := (args.map (fun a => a.2 ++ showExpr a.1)).foldl (· ++ ·) ""
  pfx ++ t.ast.prototype.name ++ "_" ++ (bytesHex (sha1 (utf8Bytes buf))).take 6

/-! ## IndexMap model

`indexmap::IndexMap` as an association list: `insert` on an existing
key replaces the value in place (keeping the position), otherwise the
pair is appended. -/

def imInsert (m : List (String × α)) (k : String) (v : α) : List (String × α) :=
  if m.any (fun p => p.1 == k) then
    m.map (fun p => if p.1 == k then (k, v) else p)
  else
    m ++ [(k, v)]

def imGet (m : List (String × α)) (k : String) : Option α :=
  (m.find? (fun p => p.1 == k)).map (·.2)

/-! ## Errors (`error.rs`) -/

/-- The GLSLT error taxonomy (variants relevant to the claims). -/
inductive GError where
  | duplicatePointerDefinition (name : String) (previous_declaration : String)
  | arrayedTemplateParameter (name : String) (index : Nat)
  | undeclaredPointerType (name : String)
  | transformAsTemplate
deriving Repr, DecidableEq

/-! ## Global scope (`transform/global_scope.rs`) -/

/-- `GlobalScope`: pointer types, templates, known functions, the set of
already instantiated specialization names, and the pending
specializations buffer. -/
structure GlobalScope where
  declared_pointer_types : List (String × FunctionPrototype)
  declared_templates : List (String × TemplateDefinition)
  known_functions : List (String × FunctionPrototype)
  instantiated_templates : List String
  instanced_templates : List FunctionDefinition
deriving Repr

def GlobalScope.new : GlobalScope :=
  { declared_pointer_types := []
    declared_templates := []
    known_functions := []
    instantiated_templates := []
    instanced_templates := [] }

/-- Result of `GlobalScope::parse_external_declaration` for the cases
the claims exercise. -/
inductive ParsedDeclaration where
  | consumedAsType
  | consumedAsTemplate (t : TemplateDefinition)
  | unparsed

/-- `GlobalScope::parse_function_prototype`: reject a pointer-type
re-declaration with `DuplicatePointerDefinition` (carrying the name and
the pretty-printed earlier prototype), otherwise record the pointer
type. -/
def GlobalScope.parse_function_prototype (gs : GlobalScope)
    (prototype : FunctionPrototype) : Except GError GlobalScope :=
  match imGet gs.declared_pointer_types prototype.name with
  | some previous =>
    .error (.duplicatePointerDefinition prototype.name (prototype_to_string previous))
  | none =>
    .ok { gs with
          declared_pointer_types :=
            imInsert gs.declared_pointer_types prototype.name prototype }

/-- The `DeclarationData::FunctionPrototype` arm of
`GlobalScope::parse_declaration`: consume the prototype as a pointer
type. -/
def GlobalScope.parse_prototype_declaration (gs : GlobalScope)
    (prototype : FunctionPrototype) : Except GError (GlobalScope × ParsedDeclaration) :=
  (gs.parse_function_prototype prototype).map (fun gs2 => (gs2, .consumedAsType))

/-! ## Template-argument extraction (`TemplateDefinition::extract_template_parameters`) -/

/-- The sequential partition pass: `idx` counts call-argument positions,
the template-parameter list acts as the cursor; a position is a template
slot iff the current cursor index is at most `idx` (then the cursor
advances).  Returns (template arguments, remaining regular
arguments). -/
def extractGo : List TemplateParameter → Nat → List Expr → List Expr × List Expr
  | _, _, [] => ([], [])
  | [], idx, a :: rest =>
    let (r, o) := extractGo [] (idx + 1) rest
    (r, a :: o)
  | c :: ps, idx, a :: rest =>
    if c.index ≤ idx then
      let (r, o) := extractGo ps (idx + 1) rest
      (a :: r, o)
    else
      let (r, o) := extractGo (c :: ps) (idx + 1) rest
      (r, a :: o)

/-- `TemplateDefinition::extract_template_parameters`: first component
is the returned template expression list, second is the contents of
`args` after the call. -/
def TemplateDefinition.extract_template_parameters (t : TemplateDefinition)
    (args : List Expr) : List Expr × List Expr :=
  extractGo t.parameters 0 args

/-! ## Lambda placeholder substitution (`local_scope.rs::lambda_instantiate`) -/

/-- The substitution table built by `lambda_instantiate`: for each
call-site argument at position `id`, insert `_<id+1>`; when the pointer
prototype's parameter at `id` is named, also insert `_<name>`.  Indexing
`prototype.parameters[id]` out of bounds is the Rust panic, modelled as
`none`. -/
def lambdaSubsGo (prototype : FunctionPrototype) :
    Nat → List (String × Expr) → List Expr → Option (List (String × Expr))
  | _, acc, [] => some acc
  | id, acc, value :: rest =>
    match prototype.parameters.get? id with
    | none => none
    | some p =>
      let acc1 := imInsert acc ("_" ++ toString (id + 1)) value
      let acc2 :=
        match p with
        | .named _ ident => imInsert acc1 ("_" ++ ident) value
        | .unnamed _ => acc1
      lambdaSubsGo prototype (id + 1) acc2 rest

def lambdaSubs (source_parameters : List Expr) (prototype : FunctionPrototype) :
    Option (List (String × Expr)) :=
  lambdaSubsGo prototype 0 [] source_parameters

/-- The placeholder/argument pairs inserted by `lambda_instantiate`, in
insertion order: `_<id+1>` for each argument, plus `_<name>` when the
prototype's parameter at that position is named. -/
def placeholderPairs (prototype : FunctionPrototype) :
    Nat → List Expr → List (String × Expr)
  | _, [] => []
  | id, v :: rest =>
    (match prototype.parameters.get? id with
     | some (.named _ ident) => [("_" ++ toString (id + 1), v), ("_" ++ ident, v)]
     | _ => [("_" ++ toString (id + 1), v)]) ++
      placeholderPairs prototype (id + 1) rest

mutual

/-- The substitution visitor of `lambda_instantiate`: a variable found
in the table is replaced and the replacement is not revisited
(`Visit::Parent`); all other nodes recurse into their children. -/
def lambdaSubst (subs : List (String × Expr)) : Expr → Expr
  | .var ident =>
    match imGet subs ident with
    | some repl => repl
    | none => .var ident
  | .intConst v => .intConst v
  | .binary op l r => .binary op (lambdaSubst subs l) (lambdaSubst subs r)
  | .funCall n args => .funCall n (lambdaSubstList subs args)

def lambdaSubstList (subs : List (String × Expr)) : List Expr → List Expr
  | [] => []
  | e :: rest => lambdaSubst subs e :: lambdaSubstList subs rest

end

/-- `local_scope.rs::lambda_instantiate`: build the placeholder table
from the source arguments and the pointer-type prototype, then rewrite
the lambda body; `none` models the out-of-bounds panic. -/
def lambda_instantiate (tgt : Expr) (source_parameters : List Expr)
    (prototype : FunctionPrototype) : Option Expr :=
  (lambdaSubs source_parameters prototype).map (fun subs => lambdaSubst subs tgt)

/-! ## Built-in function names (`transform/instantiate.rs`) -/

/-- `BUILTIN_FUNCTION_NAMES`, verbatim from the source (kept sorted
there for `binary_search`). -/
def BUILTIN_FUNCTION_NAMES : List String :=
  ["EmitStreamVertex", "EmitVertex", "EndPrimitive", "EndStreamPrimitive", "abs", "acos",
   "acosh", "all", "any", "asin", "asinh", "atan", "atanh", "atomicAdd", "atomicAnd",
   "atomicCompSwap", "atomicCounter", "atomicCounterDecrement", "atomicCounterIncrement",
   "atomicExchange", "atomicMax", "atomicMin", "atomicOr", "atomicXor", "barrier", "bitCount",
   "bitfieldExtract", "bitfieldInsert", "bitfieldReverse", "ceil", "clamp", "cos", "cosh",
   "cross", "dFdx", "dFdxCoarse", "dFdxFine", "dFdy", "dFdyCoarse", "dFdyFine", "degrees",
   "determinant", "distance", "dot", "equal", "exp", "exp2", "faceforward", "findLSB",
   "findMSB", "floatBitsToInt", "floatBitsToUint", "floor", "fma", "fract", "frexp", "fwidth",
   "fwidthCoarse", "fwidthFine", "greaterThan", "greaterThanEqual", "groupMemoryBarrier",
   "imageAtomicAdd", "imageAtomicAnd", "imageAtomicCompSwap", "imageAtomicExchange",
   "imageAtomicMax", "imageAtomicMin", "imageAtomicOr", "imageAtomicXor", "imageLoad",
   "imageSamples", "imageSize", "imageStore", "imulExtended", "intBitsToFloat",
   "interpolateAtCentroid", "interpolateAtOffset", "interpolateAtSample", "inverse",
   "inversesqrt", "isinf", "isnan", "ldexp", "length", "lessThan", "lessThanEqual", "log",
   "log2", "matrixCompMult", "max", "memoryBarrier", "memoryBarrierAtomicCounter",
   "memoryBarrierBuffer", "memoryBarrierImage", "memoryBarrierShared", "min", "mix", "mod",
   "modf", "noise", "noise1", "noise2", "noise3", "noise4", "normalize", "not", "notEqual",
   "outerProduct", "packDouble2x32", "packHalf2x16", "packSnorm2x16", "packSnorm4x8",
   "packUnorm", "packUnorm2x16", "packUnorm4x8", "pow", "radians", "reflect", "refract",
   "removedTypes", "round", "roundEven", "sign", "sin", "sinh", "smoothstep", "sqrt", "step",
   "tan", "tanh", "texelFetch", "texelFetchOffset", "texture", "textureGather",
   "textureGatherOffset", "textureGatherOffsets", "textureGrad", "textureGradOffset",
   "textureLod", "textureLodOffset", "textureOffset", "textureProj", "textureProjGrad",
   "textureProjGradOffset", "textureProjLod", "textureProjLodOffset", "textureProjOffset",
   "textureQueryLevels", "textureQueryLod", "textureSamples", "textureSize", "transpose",
   "trunc", "uaddCarry", "uintBitsToFloat", "umulExtended", "unpackDouble2x32",
   "unpackHalf2x16", "unpackSnorm2x16", "unpackSnorm4x8", "unpackUnorm", "unpackUnorm2x16",
   "unpackUnorm4x8", "usubBorrow"]

/-- Rust slice `binary_search` (`is_ok` outcome): classic half-interval
search over a sorted slice; returns whether the target was found. -/
def binarySearchGo (l : List String) (target : String) : Nat → Nat → Nat → Bool
  | 0, _, _ => false
  | fuel + 1, lo, hi =>
    if lo < hi then
      let mid := (lo + hi) / 2
      match compare (l.getD mid "") target with
      | .lt => binarySearchGo l target fuel (mid + 1) hi
      | .gt => binarySearchGo l target fuel lo mid
      | .eq => true
    else
      false

def binarySearchContains (l : List String) (target : String) : Bool :=
  binarySearchGo l target (l.length + 1) 0 l.length

/-! ## Instantiator walk (`transform/instantiate.rs`)

The instantiator walks a function body in mutating pre-order.  The
scope it talks to is a `&mut dyn Scope`; the claims C2 and C7 are about
the walk itself, so the scope is embedded as an oracle record of the
three operations `visit_fun_call` uses, and the side effects the walk
can have on the scope are recorded in an action log. -/

/-- Oracle for the `dyn Scope` operations consulted by
`visit_fun_call`. -/
structure InstEnv where
  transformArgCall : String → List Expr → Except GError Expr
  getTemplate : String → Option TemplateDefinition
  transformCall : String → List Expr → Except GError Expr

/-- Scope interactions performed by the walk, in order. -/
inductive InstAction where
  | scopeConsulted (callee : String)
  | templateLookup (callee : String)
  | callTransformed (callee : String)
deriving Repr, DecidableEq

/-- Instantiator state: the error slot (`self.error`) and the action
log. -/
structure InstState where
  error : Option GError
  actions : List InstAction
deriving Repr

/-- The part of `InstantiateTemplate::visit_fun_call` that runs after
the arguments have been visited: stop if the callee is a GLSL built-in;
otherwise ask the scope to transform the call as a template-argument
call, falling back to a template lookup on `TransformAsTemplate`; any
other error is written to the error slot (unconditionally:
`self.error = Some(error)`). -/
def funCallDispatch (env : InstEnv) (st1 : InstState) (callee : String)
    (args2 : List Expr) : InstState × Expr :=
  if binarySearchContains BUILTIN_FUNCTION_NAMES callee then
    (st1, .funCall callee args2)
  else
    let st2 := { st1 with actions := st1.actions ++ [.scopeConsulted callee] }
    match env.transformArgCall callee args2 with
    | .ok e2 => (st2, e2)
    | .error .transformAsTemplate =>
      let st3 := { st2 with actions := st2.actions ++ [.templateLookup callee] }
      match env.getTemplate callee with
      | some _ =>
        match env.transformCall callee args2 with
        | .ok e2 => ({ st3 with actions := st3.actions ++ [.callTransformed callee] }, e2)
        | .error e => ({ st3 with error := some e }, .funCall callee args2)
      | none => (st3, .funCall callee args2)
    | .error e => ({ st2 with error := some e }, .funCall callee args2)

mutual

/-- `InstantiateTemplateUnit::visit_expr` / pre-order walk over an
expression; a function call visits its arguments first
(`InstantiateTemplate::visit_fun_call`), then dispatches on the
callee. -/
def visitExpr (env : InstEnv) (st : InstState) : Expr → InstState × Expr
  | .funCall callee args =>
    let (st1, args2) := visitExprList env st args
    funCallDispatch env st1 callee args2
  | .binary op l r =>
    let (st1, l2) := visitExpr env st l
    let (st2, r2) := visitExpr env st1 r
    (st2, .binary op l2 r2)
  | .var n => (st, .var n)
  | .intConst v => (st, .intConst v)

def visitExprList (env : InstEnv) (st : InstState) : List Expr → InstState × List Expr
  | [] => (st, [])
  | e :: rest =>
    let (st1, e2) := visitExpr env st e
    let (st2, rest2) := visitExprList env st1 rest
    (st2, e2 :: rest2)

end

/-- `InstantiateTemplate::instantiate`: walk the whole definition, then
return the recorded error if any, else the produced definitions
(specializations drained from the scope, then the rewritten
function). -/
def instantiate (env : InstEnv) (d : FunctionDefinition) :
    Except GError (List FunctionDefinition) :=
  let (st, body2) := visitExprList env { error := none, actions := [] } d.statement
  match st.error with
  | some e => .error e
  | none => .ok [{ d with statement := body2 }]

/-- The error (if any) produced by the dispatch step of one function
call, given the already-rewritten arguments. -/
def errOfDispatch (env : InstEnv) (callee : String) (args2 : List Expr) : List GError :=
  if binarySearchContains BUILTIN_FUNCTION_NAMES callee then []
  else
    match env.transformArgCall callee args2 with
    | .ok _ => []
    | .error .transformAsTemplate =>
      match env.getTemplate callee with
      | some _ =>
        match env.transformCall callee args2 with
        | .ok _ => []
        | .error e => [e]
      | none => []
    | .error e => [e]

mutual

/-- The sequence of errors assigned to the error slot during the walk,
in traversal order; used to state which error `instantiate` reports. -/
def errTraceExpr (env : InstEnv) : Expr → List GError
  | .funCall callee args =>
    errTraceList env args ++
      errOfDispatch env callee (visitExprList env { error := none, actions := [] } args).2
  | .binary _ l r => errTraceExpr env l ++ errTraceExpr env r
  | .var _ => []
  | .intConst _ => []

def errTraceList (env : InstEnv) : List Expr → List GError
  | [] => []
  | e :: rest => errTraceExpr env e ++ errTraceList env rest

end

/-! ## Specialization registration (claim C6)

`InstantiateTemplate::transform_call` creates the local scope (which
computes the mangled name), instantiates and registers the
specialization only when `template_instance_declared` is false, and
always rewrites the call site to the mangled name.  The definition the
instantiation produces comes from `TemplateDefinition::instantiate`,
whose current revision is not part of the sources; it is modelled from
the spec below as the `produced` field of a call-site event. -/

/-- `HashSet::insert` on a set modelled as a duplicate-free list. -/
def setInsert (s : List String) (x : String) : List String :=
  if x ∈ s then s else s ++ [x]

/-- `GlobalScope::register_template_instance`: for each definition,
note its name in `instantiated_templates` and append it to the pending
`instanced_templates`. -/
def register_template_instance (gs : GlobalScope)
    (definitions : List FunctionDefinition) : GlobalScope :=
  definitions.foldl
    (fun gs t =>
      { gs with
        instantiated_templates := setInsert gs.instantiated_templates t.prototype.name
        instanced_templates := gs.instanced_templates ++ [t] })
    gs

/-- `GlobalScope::template_instance_declared`. -/
def template_instance_declared (gs : GlobalScope) (template_name : String) : Bool :=
  template_name ∈ gs.instantiated_templates

/-- A template call site, reduced to what `transform_call` consumes:
the mangled name computed by `LocalScope::new` and the specialization
definition instantiation would produce for it.  Modelled from the spec:
§4.5 renames the cloned stripped definition to the mangled name, so
`produced.prototype.name = mangled` for every real call site. -/
structure CallSite where
  mangled : String
  produced : FunctionDefinition

/-- `InstantiateTemplate::transform_call`, state part: instantiate and
register only when the mangled name is not yet declared; the second
component is the identifier the call site is rewritten to. -/
def transform_call (gs : GlobalScope) (c : CallSite) : GlobalScope × String :=
  if template_instance_declared gs c.mangled then
    (gs, c.mangled)
  else
    (register_template_instance gs [c.produced], c.mangled)

/-- Fold `transform_call` over the call sites of one transform unit. -/
def runCalls (gs : GlobalScope) (cs : List CallSite) : GlobalScope :=
  cs.foldl (fun g c => (transform_call g c).1) gs

/-! ## Local-scope capture computation (`LocalScope::new`, claim C3) -/

/-- `instantiate.rs::DeclaredSymbol`. -/
structure DeclaredSymbol where
  symbol_id : Nat
  gen_id : String
  decl_type : String
  array : Option String
deriving Repr, DecidableEq

/-- `instantiate.rs::CapturedParameter`. -/
structure CapturedParameter where
  ident : String
  symbol_id : Nat
  gen_id : String
  decl_type : String
  array : Option String
deriving Repr, DecidableEq

mutual

/-- The `Capturer` visitor of `LocalScope::new`: a variable found in
the symbol table is added to the captured map and renamed to its
`gen_id`. -/
def capturerVisit (st : List (String × DeclaredSymbol))
    (cap : List (String × DeclaredSymbol)) :
    Expr → List (String × DeclaredSymbol) × Expr
  | .var ident =>
    match imGet st ident with
    | some sb => (imInsert cap ident sb, .var sb.gen_id)
    | none => (cap, .var ident)
  | .intConst v => (cap, .intConst v)
  | .binary op l r =>
    let (c1, l2) := capturerVisit st cap l
    let (c2, r2) := capturerVisit st c1 r
    (c2, .binary op l2 r2)
  | .funCall n args =>
    let (c2, args2) := capturerVisitList st cap args
    (c2, .funCall n args2)

def capturerVisitList (st : List (String × DeclaredSymbol))
    (cap : List (String × DeclaredSymbol)) :
    List Expr → List (String × DeclaredSymbol) × List Expr
  | [] => (cap, [])
  | e :: rest =>
    let (c1, e2) := capturerVisit st cap e
    let (c2, rest2) := capturerVisitList st c1 rest
    (c2, e2 :: rest2)

end

/-- The symbol-table merge of `LocalScope::new`: the outer captured
parameters are inserted under their `gen_id`. -/
def mergeSymbolTable (symbol_table : List (String × DeclaredSymbol))
    (parentCaptured : List CapturedParameter) : List (String × DeclaredSymbol) :=
  parentCaptured.foldl
    (fun acc cp =>
      imInsert acc cp.gen_id
        { symbol_id := cp.symbol_id
          gen_id := cp.gen_id
          decl_type := cp.decl_type
          array := cp.array })
    symbol_table

/-- The captured-parameter computation of `LocalScope::new`: merge the
outer captures into the symbol table, run the capturer over the
template-argument expressions, rebuild `CapturedParameter`s by looking
the captured keys up again (the `expect` panic is modelled as `none`),
merge in the parent captures not already collected, and sort by
`symbol_id`. -/
def localScopeCaptures (symbol_table : List (String × DeclaredSymbol))
    (parentCaptured : List CapturedParameter)
    (template_parameters : List Expr) : Option (List CapturedParameter) :=
  let st := mergeSymbolTable symbol_table parentCaptured
  let (cap, _rewritten) := capturerVisitList st [] template_parameters
  match cap.mapM (fun kv =>
      (imGet st kv.1).map (fun declared =>
        (kv.1,
         { ident := kv.1
           symbol_id := declared.symbol_id
           gen_id := declared.gen_id
           decl_type := declared.decl_type
           array := declared.array : CapturedParameter }))) with
  | none => none
  | some own =>
    let withOuter := parentCaptured.foldl
      (fun acc outer =>
        if (imGet acc outer.ident).isSome then acc
        else imInsert acc outer.gen_id { outer with ident := outer.gen_id })
      own
    some ((withOuter.map (·.2)).mergeSort (fun a b => a.symbol_id ≤ b.symbol_id))

/-! ## Dependency DAG (`transform/min_unit/dependency_dag.rs`) -/

/-- Keys of the minifying unit's declaration store and of the DAG's
symbol map. -/
inductive ExternalIdentifier where
  | functionDefinition (name : String)
  | declaration (name : String)
deriving Repr, DecidableEq

/-- `DependencyDag`: the bidirectional symbol map (association list of
key/node-index pairs), the petgraph node count, and the edge list in
insertion order. -/
structure DependencyDag where
  symbol_map : List (ExternalIdentifier × Nat)
  nodeCount : Nat
  edges : List (Nat × Nat)
deriving Repr

def DependencyDag.empty : DependencyDag :=
  { symbol_map := [], nodeCount := 0, edges := [] }

/-- `DependencyDag::symbol_to_id`: reuse the mapped index or add a
fresh graph node. -/
def symbol_to_id (dag : DependencyDag) (symbol : ExternalIdentifier) :
    Nat × DependencyDag :=
  match dag.symbol_map.find? (fun p => decide (p.1 = symbol)) with
  | some p => (p.2, dag)
  | none =>
    (dag.nodeCount,
     { dag with
       nodeCount := dag.nodeCount + 1
       symbol_map := dag.symbol_map ++ [(symbol, dag.nodeCount)] })

/-- `DependencyDag::declare_symbol` (identical to `symbol_to_id` after
`to_owned`). -/
def declare_symbol (dag : DependencyDag) (symbol : ExternalIdentifier) :
    Nat × DependencyDag :=
  symbol_to_id dag symbol

/-- `DependencyDag::add_dep`: `assert!(scope != dependency)` then add
the edge; the failing assertion (a Rust panic) is modelled as
`none`. -/
def add_dep (dag : DependencyDag) (scope dependency : Nat) : Option DependencyDag :=
  if scope = dependency then none
  else some { dag with edges := dag.edges ++ [(scope, dependency)] }

/-- `BiMap::get_by_right`. -/
def lookupByRight (m : List (ExternalIdentifier × Nat)) (id : Nat) :
    Option ExternalIdentifier :=
  (m.find? (fun p => p.2 == id)).map (·.1)

/-- Lookup in the minifying unit's keyed declaration store. -/
def eiGet (m : List (ExternalIdentifier × String)) (k : ExternalIdentifier) :
    Option String :=
  (m.find? (fun p => decide (p.1 = k))).map (·.2)

/-! ## The `extend_dag` visitor of `min_unit.rs` (function-definition
part, claim C5)

`visit_function_definition` sets the current scope name; inside the
body, `visit_fun_identifier` declares `FunctionDefinition(callee)` and
calls `add_dep` unconditionally, while `visit_identifier` adds a
`Declaration(name)` edge only when a declaration under that key is
already stored.  (Unlike `visit_type_name`, neither checks
`this != csn`.) -/

mutual

def extendDagExpr (stored : List ExternalIdentifier) (csn : Nat)
    (dag : DependencyDag) : Expr → Option DependencyDag
  | .var name =>
    if stored.any (fun k => decide (k = .declaration name)) then
      let (this, dag1) := declare_symbol dag (.declaration name)
      add_dep dag1 csn this
    else
      some dag
  | .intConst _ => some dag
  | .binary _ l r => do
    let dag1 ← extendDagExpr stored csn dag l
    extendDagExpr stored csn dag1 r
  | .funCall callee args => do
    let (this, dag1) := declare_symbol dag (.functionDefinition callee)
    let dag2 ← add_dep dag1 csn this
    extendDagExprList stored csn dag2 args

def extendDagExprList (stored : List ExternalIdentifier) (csn : Nat)
    (dag : DependencyDag) : List Expr → Option DependencyDag
  | [] => some dag
  | e :: rest => do
    let dag1 ← extendDagExpr stored csn dag e
    extendDagExprList stored csn dag1 rest

end

/-- `MinUnit::extend_dag` restricted to one function definition: the
scope is `FunctionDefinition(name)`, then the body is walked. -/
def extend_dag_function (stored : List ExternalIdentifier) (dag : DependencyDag)
    (fd : FunctionDefinition) : Option DependencyDag :=
  let (csn, dag1) := declare_symbol dag (.functionDefinition fd.prototype.name)
  extendDagExprList stored csn dag1 fd.statement

/-! ## Depth-first post-order traversal (claim C4)

`DependencyDag::into_dependencies` runs petgraph's `DfsPostOrder` from
the synthetic root.  Petgraph stores a node's outgoing edges most
recent first and the iterative traversal pushes them on a stack, so
edges are explored in insertion order; the traversal is embedded as the
standard recursive depth-first post-order with a visited list and
enough fuel (one unit per first visit of a node). -/

/-- Successors of `u` in edge-insertion order. -/
def succs (edges : List (Nat × Nat)) (u : Nat) : List Nat :=
  (edges.filter (fun e => e.1 == u)).map (·.2)

/-- Visit a list of nodes in order with the traversal function `f`,
threading the visited list and concatenating the emitted outputs. -/
def dfsStep (f : List Nat → Nat → List Nat × List Nat) :
    List Nat → List Nat → List Nat × List Nat
  | vis, [] => (vis, [])
  | vis, v :: vs =>
    let (vis1, out1) := f vis v
    let (vis2, out2) := dfsStep f vis1 vs
    (vis2, out1 ++ out2)

/-- Depth-first post-order from `u`: an unvisited node is marked, its
successors are traversed in order, then the node itself is emitted.
One unit of fuel is spent per first visit, so any fuel exceeding the
number of distinct reachable nodes computes the full traversal. -/
def dfsPost (edges : List (Nat × Nat)) : Nat → List Nat → Nat → List Nat × List Nat
  | 0, vis, _ => (vis, [])
  | fuel + 1, vis, u =>
    if u ∈ vis then (vis, [])
    else
      let (vis2, out) := dfsStep (dfsPost edges fuel) (u :: vis) (succs edges u)
      (vis2, out ++ [u])

/-- `DependencyDag::into_dependencies`: add the synthetic root, one
edge per wanted key in order (declaring missing keys as fresh nodes),
run the post-order traversal from the root, and translate the visited
node indices back to symbols (the root itself has no symbol). -/
def into_dependencies (dag : DependencyDag) (wanted : List ExternalIdentifier) :
    List ExternalIdentifier :=
  let wanted_id := dag.nodeCount
  let dag1 : DependencyDag := { dag with nodeCount := dag.nodeCount + 1 }
  let dag2 := wanted.foldl
    (fun d w =>
      let (id, d2) := symbol_to_id d w
      { d2 with edges := d2.edges ++ [(wanted_id, id)] })
    dag1
  let (_, post) := dfsPost dag2.edges (dag2.nodeCount + 1) [] wanted_id
  post.filterMap (fun i => lookupByRight dag2.symbol_map i)

/-- `MinUnit::into_translation_unit`: the static declarations in
insertion order, then the stored declarations among the traversal
result (missing dependencies are silently skipped).  Declarations are
opaque payloads. -/
def into_translation_unit (static_declarations : List String)
    (external_declarations : List (ExternalIdentifier × String))
    (dag : DependencyDag) (wanted : List String) : List String :=
  let wantedKeys := wanted.map ExternalIdentifier.functionDefinition
  static_declarations ++
    (into_dependencies dag wantedKeys).filterMap
      (fun id => eiGet external_declarations id)

/-- The keys of the declarations actually emitted after the static
block, in output order. -/
def outputKeys (dag : DependencyDag)
    (external_declarations : List (ExternalIdentifier × String))
    (wanted : List String) : List ExternalIdentifier :=
  (into_dependencies dag (wanted.map ExternalIdentifier.functionDefinition)).filter
    (fun k => (eiGet external_declarations k).isSome)

/-- The ordering part of claim C4, as stated: every declaration with an
incoming edge from an emitted declaration either precedes it among the
emitted declarations or was never declared. -/
def claimOrderingC4 (dag : DependencyDag)
    (external_declarations : List (ExternalIdentifier × String))
    (wanted : List String) : Prop :=
  ∀ e ∈ dag.edges, ∀ p ∈ dag.symbol_map, ∀ q ∈ dag.symbol_map,
    p.2 = e.1 → q.2 = e.2 →
      p.1 ∈ outputKeys dag external_declarations wanted →
        (eiGet external_declarations q.1).isSome = true →
          (outputKeys dag external_declarations wanted).indexOf q.1 <
            (outputKeys dag external_declarations wanted).indexOf p.1

/-- Edge relation of an edge list. -/
def edgeRel (edges : List (Nat × Nat)) (a b : Nat) : Prop := (a, b) ∈ edges

/-- No directed cycle. -/
def Acyclic (edges : List (Nat × Nat)) : Prop :=
  ∀ n, ¬ Relation.TransGen (edgeRel edges) n n

/-- `s` occurs strictly before `d` in `l`. -/
def before (s d : Nat) (l : List Nat) : Prop :=
  ∃ l1 l2, l = l1 ++ d :: l2 ∧ s ∈ l1

/-- Cumulative overwrite of an error slot by a list of assignments. -/
def updErr (e : Option GError) (l : List GError) : Option GError :=
  l.foldl (fun _ x => some x) e

/-! ## Concrete instances used by counterexamples and witnesses -/

/-- A template `int foo(intfn cb)` with one pointer-typed parameter. -/
def tC1 : TemplateDefinition :=
  { ast := { prototype := { retTy := "int", name := "foo", parameters := [] }
             statement := [] }
    parameters := [{ typename := "intfn", symbol := some "cb", index := 0 }] }

/-- A scope oracle that rejects the calls `f` and `g` with two distinct
errors and treats everything else as a non-template call. -/
def envC2 : InstEnv :=
  { transformArgCall := fun callee _ =>
      if callee == "f" then .error (.undeclaredPointerType "tf")
      else if callee == "g" then .error (.undeclaredPointerType "tg")
      else .error .transformAsTemplate
    getTemplate := fun _ => none
    transformCall := fun _ _ => .error .transformAsTemplate }

/-- `void main() { f(); g(); }` — two erroring calls in one body. -/
def defC2 : FunctionDefinition :=
  { prototype := { retTy := "void", name := "main", parameters := [] }
    statement := [.funCall "f" [], .funCall "g" []] }

/-- `int f() { return g(); }` — mutual recursion partner of `gDefC4`. -/
def fDefC4 : FunctionDefinition :=
  { prototype := { retTy := "int", name := "f", parameters := [] }
    statement := [.funCall "g" []] }

/-- `int g() { return f(); }`. -/
def gDefC4 : FunctionDefinition :=
  { prototype := { retTy := "int", name := "g", parameters := [] }
    statement := [.funCall "f" []] }

/-- `void main() { f(); }`. -/
def mainDefC4 : FunctionDefinition :=
  { prototype := { retTy := "void", name := "main", parameters := [] }
    statement := [.funCall "f" []] }

/-- The dependency DAG obtained by ingesting `fDefC4`, `gDefC4` and
`mainDefC4` in that order (shown by `min_unit_ordering_counterexample`):
`f → g`, `g → f`, `main → f`. -/
def dagC4 : DependencyDag :=
  { symbol_map := [(.functionDefinition "f", 0), (.functionDefinition "g", 1),
                   (.functionDefinition "main", 2)]
    nodeCount := 3
    edges := [(0, 1), (1, 0), (2, 0)] }

/-- The declaration store after the same run. -/
def storeC4 : List (ExternalIdentifier × String) :=
  [(.functionDefinition "f", "int f() { return g(); }"),
   (.functionDefinition "g", "int g() { return f(); }"),
   (.functionDefinition "main", "void main() { f(); }")]

/-- `int f() { return f(); }` — a function whose body references its
own name. -/
def recDefC5 : FunctionDefinition :=
  { prototype := { retTy := "int", name := "f", parameters := [] }
    statement := [.funCall "f" []] }

/-- `int f() { return g(); }` — same shape without the
self-reference. -/
def okDefC5 : FunctionDefinition :=
  { prototype := { retTy := "int", name := "f", parameters := [] }
    statement := [.funCall "g" []] }

/-- A template whose pointer-typed parameters sat at positions 0 and 2
of the original parameter list. -/
def tC8 : TemplateDefinition :=
  { ast := { prototype := { retTy := "int", name := "tpl", parameters := [] }
             statement := [] }
    parameters := [{ typename := "intfn", symbol := some "cb", index := 0 },
                   { typename := "intfn", symbol := some "cb2", index := 2 }] }

/-- A call site with exactly one specialization definition, used twice. -/
def eventC6 : CallSite :=
  { mangled := "_glslt_tpl_0123ab"
    produced := { prototype := { retTy := "int", name := "_glslt_tpl_0123ab",
                                 parameters := [] }
                  statement := [] } }

/-- The pointer type `int IntF(int x);` with a named parameter. -/
def protoIntF : FunctionPrototype :=
  { retTy := "int", name := "IntF", parameters := [.named "int" "x"] }

/-- A symbol table with two locals `x` and `y`. -/
def stC3 : List (String × DeclaredSymbol) :=
  [("x", { symbol_id := 0, gen_id := "_glslt_lp0", decl_type := "int", array := none }),
   ("y", { symbol_id := 1, gen_id := "_glslt_lp1", decl_type := "int", array := none })]

/-- A parent scope that already captured `z`. -/
def pcC3 : List CapturedParameter :=
  [{ ident := "z", symbol_id := 2, gen_id := "_glslt_lp2", decl_type := "float",
     array := none }]

/-- Template arguments referencing `y`, `x` and the parent capture. -/
def tpsC3 : List Expr :=
  [.binary "*" (.var "y") (.var "x"), .var "_glslt_lp2"]

/-- A pointer type `int intfn();` as first declared. -/
def protoIntfn : FunctionPrototype :=
  { retTy := "int", name := "intfn", parameters := [] }

/-- A global scope that already declared `intfn` as a pointer type. -/
def gsC9 : GlobalScope :=
  { GlobalScope.new with declared_pointer_types := [("intfn", protoIntfn)] }

/-- A second prototype re-using the name `intfn`. -/
def protoIntfn2 : FunctionPrototype :=
  { retTy := "float", name := "intfn", parameters := [] }

/-- A prototype with a fresh name. -/
def protoFresh : FunctionPrototype :=
  { retTy := "int", name := "floatfn", parameters := [] }

/-- Invariant of the root-extended graph built by `into_dependencies`:
the original symbol map is kept as a prefix, keys and node indices stay
duplicate-free and in range, no symbol is mapped to the synthetic root,
and every edge is either an original edge or leaves the root (and never
enters it). -/
structure DagInv (dag : DependencyDag) (root : Nat) (d : DependencyDag) : Prop where
  smExt : ∃ ext, d.symbol_map = dag.symbol_map ++ ext
  keysNodup : (d.symbol_map.map Prod.fst).Nodup
  idsNodup : (d.symbol_map.map Prod.snd).Nodup
  smBound : ∀ p ∈ d.symbol_map, p.2 < d.nodeCount ∧ p.2 ≠ root
  rootLt : root < d.nodeCount
  edgesChar : ∀ e ∈ d.edges, e.1 < d.nodeCount ∧ e.2 < d.nodeCount ∧ e.2 ≠ root ∧
    (e.1 = root ∨ (e.1, e.2) ∈ dag.edges)
  edgesSub : ∀ e ∈ dag.edges, e ∈ d.edges

/-- The root-extended graph of `into_dependencies`: the synthetic root
is node `dag.nodeCount`, and one edge per wanted key is appended in
order (declaring missing keys as fresh nodes). -/
def rootedDag (dag : DependencyDag) (wanted : List ExternalIdentifier) : DependencyDag :=
  wanted.foldl
    (fun d w =>
      let (id, d2) := symbol_to_id d w
      { d2 with edges := d2.edges ++ [(dag.nodeCount, id)] })
    { dag with nodeCount := dag.nodeCount + 1 }

/-- An acyclic dependency graph: `f → g` and `main → f`. -/
def dagW4 : DependencyDag :=
  { symbol_map := [(.functionDefinition "f", 0), (.functionDefinition "g", 1),
                   (.functionDefinition "main", 2)]
    nodeCount := 3
    edges := [(0, 1), (2, 0)] }

/-- The corresponding declaration store. -/
def storeW4 : List (ExternalIdentifier × String) :=
  [(.functionDefinition "f", "int f() { return g(); }"),
   (.functionDefinition "g", "int g() { return 1; }"),
   (.functionDefinition "main", "void main() { f(); }")]

/-! # Theorems -/

/-- Rust `join` of the three mangled-name components. -/
theorem glslt_join3 (b c : String) :
    rustJoin "_" ["_glslt", b, c] = "_glslt_" ++ b ++ "_" ++ c := by
  show "_glslt" ++ "_" ++ (b ++ "_" ++ c) = "_glslt_" ++ b ++ "_" ++ c
  rw [show ("_glslt" ++ "_" : String) = "_glslt_" from rfl]
  rw [String.append_assoc, String.append_assoc, ← String.append_assoc]

/-- Claim C9: ingesting a top-level bodyless prototype whose name
equals an already-declared pointer type fails with
`DuplicatePointerDefinition` carrying that name and the pretty-printed
earlier prototype (the `Except.error` result carries no updated scope,
so the pointer-type table is unchanged); ingesting a fresh name records
the pointer type and reports the declaration as consumed. -/
theorem prototype_ingest (gs : GlobalScope) (proto : FunctionPrototype) :
    (∀ previous, imGet gs.declared_pointer_types proto.name = some previous →
        gs.parse_prototype_declaration proto =
          .error (.duplicatePointerDefinition proto.name (prototype_to_string previous))) ∧
      (imGet gs.declared_pointer_types proto.name = none →
        gs.parse_prototype_declaration proto =
          .ok ({ gs with
                 declared_pointer_types :=
                   imInsert gs.declared_pointer_types proto.name proto },
               .consumedAsType)) := by
  constructor
  · intro previous h
    unfold GlobalScope.parse_prototype_declaration GlobalScope.parse_function_prototype
    rw [h]
    rfl
  · intro h
    unfold GlobalScope.parse_prototype_declaration GlobalScope.parse_function_prototype
    rw [h]
    rfl

/-- Witness for `prototype_ingest`: re-declaring `intfn` is rejected
with the pretty-printed earlier prototype, and a fresh name is
consumed. -/
theorem prototype_ingest_witness :
    gsC9.parse_prototype_declaration protoIntfn2 =
        .error (.duplicatePointerDefinition "intfn" "int intfn()") ∧
      gsC9.parse_prototype_declaration protoFresh =
        .ok ({ gsC9 with
               declared_pointer_types :=
                 imInsert gsC9.declared_pointer_types "floatfn" protoFresh },
             .consumedAsType) := by
  constructor
  · have h := (prototype_ingest gsC9 protoIntfn2).1 protoIntfn rfl
    rw [h]
    rfl
  · exact (prototype_ingest gsC9 protoFresh).2 rfl

/-- Claim C1 is false as stated: at the call site passing the literal
`1` for a parameter of pointer type `intfn`, the code hashes only the
pretty-printed expressions (`"1"`), not the pointer-type names
(`"intfn1"`); the two mangled names differ
(`_glslt_foo_356a19` vs `_glslt_foo_3083da`). -/
theorem mangled_name_counterexample :
    tC1.generate_id [.intConst 1] ≠
      spec_mangled_name "_glslt_" tC1 [(.intConst 1, "intfn")] := by
  have hCode : tC1.generate_id [.intConst 1] =
      rustJoin "_" ["_glslt", "foo", (bytesHex (sha1 (utf8Bytes "1"))).take 6] := rfl
  have hSpec : spec_mangled_name "_glslt_" tC1 [(.intConst 1, "intfn")] =
      "_glslt_" ++ "foo" ++ "_" ++ (bytesHex (sha1 (utf8Bytes "intfn1"))).take 6 := rfl
  have hA : (bytesHex (sha1 (utf8Bytes "1"))).take 6 = "356a19" := by decide
  have hB : (bytesHex (sha1 (utf8Bytes "intfn1"))).take 6 = "3083da" := by decide
  rw [hA] at hCode
  rw [hB] at hSpec
  have hCode2 : rustJoin "_" ["_glslt", "foo", "356a19"] = "_glslt_foo_356a19" := by decide
  have hSpec2 : "_glslt_" ++ "foo" ++ "_" ++ "3083da" = "_glslt_foo_3083da" := by decide
  rw [hCode, hCode2, hSpec, hSpec2]
  decide

/-- Claim C1 (amended): the mangled name is the fixed prefix `_glslt_`,
then the template's name, an underscore, and the first 6 lower-case hex
characters of the SHA-1 of the UTF-8 buffer obtained by concatenating,
in order, the pretty-printed forms of the argument expressions only
(pointer-type names are not part of the buffer). -/
theorem generate_id_formula (t : TemplateDefinition) (args : List Expr) :
    t.generate_id args =
      "_glslt_" ++ t.ast.prototype.name ++ "_" ++
        (bytesHex (sha1 (utf8Bytes ((args.map showExpr).foldl (· ++ ·) "")))).take 6 :=
  glslt_join3 t.ast.prototype.name (expr_vec_to_id args)

/-- Claim C2 is false as stated: in `void main() { f(); g(); }` where
`f` fails with `UndeclaredPointerType "tf"` and then `g` fails with
`UndeclaredPointerType "tg"`, the first error encountered is `tf` but
`instantiate` returns `tg` — the later error replaced the earlier
one. -/
theorem first_error_counterexample :
    (errTraceList envC2 defC2.statement).head? =
        some (.undeclaredPointerType "tf") ∧
      instantiate envC2 defC2 = .error (.undeclaredPointerType "tg") ∧
      GError.undeclaredPointerType "tg" ≠ GError.undeclaredPointerType "tf" :=
  ⟨rfl, rfl, by decide⟩

theorem updErr_nil (e : Option GError) : updErr e [] = e := rfl

theorem updErr_append (e : Option GError) (l1 l2 : List GError) :
    updErr e (l1 ++ l2) = updErr (updErr e l1) l2 :=
  List.foldl_append _ _ _ _

theorem updErr_concat (e : Option GError) (l : List GError) (x : GError) :
    updErr e (l ++ [x]) = some x := by
  rw [updErr_append]
  rfl

/-- The cumulative overwrite of the error slot keeps the last
assignment. -/
theorem updErr_getLast (l : List GError) (e : Option GError) :
    updErr e l = match l.getLast? with
      | some x => some x
      | none => e := by
  induction l using List.reverseRecOn with
  | nil => rfl
  | append_singleton xs x _ =>
    rw [updErr_concat, List.getLast?_concat]

/-- The state component of `funCallDispatch` updates the error slot
exactly by the dispatch's error, if any. -/
theorem dispatch_error (env : InstEnv) (s : InstState) (c : String) (a : List Expr) :
    (funCallDispatch env s c a).1.error = updErr s.error (errOfDispatch env c a) := by
  unfold funCallDispatch errOfDispatch
  split
  · rfl
  · cases env.transformArgCall c a with
    | ok e2 => rfl
    | error ge =>
      cases ge with
      | transformAsTemplate =>
        cases env.getTemplate c with
        | some t =>
          cases env.transformCall c a with
          | ok e2 => rfl
          | error e => rfl
        | none => rfl
      | duplicatePointerDefinition n p => rfl
      | arrayedTemplateParameter n i => rfl
      | undeclaredPointerType n => rfl

/-- The expression produced by `funCallDispatch` does not depend on the
incoming instantiator state. -/
theorem dispatch_snd (env : InstEnv) (s s2 : InstState) (c : String) (a : List Expr) :
    (funCallDispatch env s c a).2 = (funCallDispatch env s2 c a).2 := by
  unfold funCallDispatch
  split
  · rfl
  · cases env.transformArgCall c a with
    | ok e2 => rfl
    | error ge =>
      cases ge with
      | transformAsTemplate =>
        cases env.getTemplate c with
        | some t =>
          cases env.transformCall c a with
          | ok e2 => rfl
          | error e => rfl
        | none => rfl
      | duplicatePointerDefinition n p => rfl
      | arrayedTemplateParameter n i => rfl
      | undeclaredPointerType n => rfl

mutual

/-- During the walk, the error slot accumulates exactly the traversal's
error trace (last assignment wins), and the rewritten expression does
not depend on the incoming state. -/
theorem visit_error_expr (env : InstEnv) (st : InstState) (e : Expr) :
    (visitExpr env st e).1.error = updErr st.error (errTraceExpr env e) ∧
      (visitExpr env st e).2 = (visitExpr env { error := none, actions := [] } e).2 :=
  match e with
  | .var n => ⟨rfl, rfl⟩
  | .intConst v => ⟨rfl, rfl⟩
  | .binary op l r => by
    have hl := visit_error_expr env st l
    have hl0 := visit_error_expr env { error := none, actions := [] } l
    have hr := visit_error_expr env (visitExpr env st l).1 r
    have hr0 := visit_error_expr env (visitExpr env { error := none, actions := [] } l).1 r
    refine ⟨?_, ?_⟩
    · show (visitExpr env (visitExpr env st l).1 r).1.error = _
      rw [hr.1, hl.1, errTraceExpr, updErr_append]
    · show (.binary op (visitExpr env st l).2 (visitExpr env (visitExpr env st l).1 r).2 : Expr)
        = .binary op (visitExpr env { error := none, actions := [] } l).2
            (visitExpr env (visitExpr env { error := none, actions := [] } l).1 r).2
      rw [hl.2, hr.2, hr0.2]
  | .funCall callee args => by
    have ha := visit_error_list env st args
    have ha0 := visit_error_list env { error := none, actions := [] } args
    refine ⟨?_, ?_⟩
    · show (funCallDispatch env (visitExprList env st args).1 callee
          (visitExprList env st args).2).1.error = _
      rw [dispatch_error, ha.1, errTraceExpr, updErr_append, ha.2]
    · show (funCallDispatch env (visitExprList env st args).1 callee
          (visitExprList env st args).2).2 = _
      rw [ha.2]
      exact dispatch_snd env _ _ callee _

theorem visit_error_list (env : InstEnv) (st : InstState) (es : List Expr) :
    (visitExprList env st es).1.error = updErr st.error (errTraceList env es) ∧
      (visitExprList env st es).2 =
        (visitExprList env { error := none, actions := [] } es).2 :=
  match es with
  | [] => ⟨rfl, rfl⟩
  | e :: rest => by
    have he := visit_error_expr env st e
    have he0 := visit_error_expr env { error := none, actions := [] } e
    have hr := visit_error_list env (visitExpr env st e).1 rest
    have hr0 := visit_error_list env (visitExpr env { error := none, actions := [] } e).1 rest
    refine ⟨?_, ?_⟩
    · show (visitExprList env (visitExpr env st e).1 rest).1.error = _
      rw [hr.1, he.1, errTraceList, updErr_append]
    · show ((visitExpr env st e).2 ::
          (visitExprList env (visitExpr env st e).1 rest).2 : List Expr) =
        (visitExpr env { error := none, actions := [] } e).2 ::
          (visitExprList env
            (visitExpr env { error := none, actions := [] } e).1 rest).2
      rw [he.2, hr.2, hr0.2]

end

/-- Claim C2 (amended): the instantiator completes its walk, and the
result of `instantiate` is determined by the traversal's error trace —
the error returned is the LAST error encountered (each error overwrites
the slot); with no errors the rewritten definition is returned. -/
theorem instantiate_reports_last_error (env : InstEnv) (d : FunctionDefinition) :
    instantiate env d =
      match (errTraceList env d.statement).getLast? with
      | some e => .error e
      | none =>
        .ok [{ d with
               statement :=
                 (visitExprList env { error := none, actions := [] } d.statement).2 }] := by
  have h := (visit_error_list env { error := none, actions := [] } d.statement).1
  rw [updErr_getLast] at h
  show (match (visitExprList env { error := none, actions := [] } d.statement).1.error with
        | some e => Except.error e
        | none =>
          Except.ok [{ d with
                       statement :=
                         (visitExprList env { error := none, actions := [] }
                           d.statement).2 }]) =
      match (errTraceList env d.statement).getLast? with
      | some e => Except.error e
      | none =>
        Except.ok [{ d with
                     statement :=
                       (visitExprList env { error := none, actions := [] }
                         d.statement).2 }]
  rw [h]
  cases hl : (errTraceList env d.statement).getLast? with
  | some e => rfl
  | none => rfl

/-- Claim C5: the claim (and spec) say the self-loop assertion in
`add_dep` can never fail, but `visit_fun_identifier` has no
`this != csn` guard: ingesting `int f() { return f(); }` in minifying
mode reaches `add_dep` with `scope == dependency` and the assertion
fires (modelled as `none`); the same body calling `g` instead is
fine. -/
theorem self_reference_assertion_fires :
    extend_dag_function [] DependencyDag.empty recDefC5 = none ∧
      (extend_dag_function [] DependencyDag.empty okDefC5).isSome = true :=
  ⟨rfl, rfl⟩

/-- The built-in table is searched correctly: every member of the
(sorted) `BUILTIN_FUNCTION_NAMES` array is found by the embedded
`binary_search`. -/
theorem builtin_membership_found :
    ∀ s ∈ BUILTIN_FUNCTION_NAMES, binarySearchContains BUILTIN_FUNCTION_NAMES s = true := by
  decide

/-- Claim C7: for a call whose callee is one of the GLSL built-in
function names, the instantiator first recursively transforms the
arguments, then leaves the call itself unchanged: the state is exactly
the post-arguments state (no scope consultation, no template lookup, no
specialization is logged, no error is recorded) and the expression is
the same call with transformed arguments — even if a template with the
same name is declared in the scope oracle. -/
theorem builtin_call_untouched (env : InstEnv) (st : InstState) (callee : String)
    (args : List Expr) (h : callee ∈ BUILTIN_FUNCTION_NAMES) :
    visitExpr env st (.funCall callee args) =
      ((visitExprList env st args).1,
       .funCall callee (visitExprList env st args).2) := by
  have hb : binarySearchContains BUILTIN_FUNCTION_NAMES callee = true :=
    builtin_membership_found callee h
  show funCallDispatch env (visitExprList env st args).1 callee
      (visitExprList env st args).2 =
    ((visitExprList env st args).1, .funCall callee (visitExprList env st args).2)
  unfold funCallDispatch
  rw [hb]
  simp

/-- Witness for `builtin_call_untouched`: `abs(x)` under a scope oracle
that rejects every non-builtin call is left intact with an untouched
state. -/
theorem builtin_call_untouched_witness :
    visitExpr envC2 { error := none, actions := [] } (.funCall "abs" [.var "x"]) =
      ({ error := none, actions := [] }, .funCall "abs" [.var "x"]) :=
  (builtin_call_untouched envC2 { error := none, actions := [] } "abs" [.var "x"]
    (by decide)).trans rfl

/-- The sequential-cursor partition of `extract_template_parameters`
splits the argument list by position membership in the template
parameter indices, preserving order on both sides, whenever the indices
are strictly increasing and at least the starting cursor position. -/
theorem extractGo_spec : ∀ (args : List Expr) (ps : List TemplateParameter) (k : Nat),
    (ps.map TemplateParameter.index).Pairwise (· < ·) →
    (∀ p ∈ ps, k ≤ p.index) →
    extractGo ps k args =
      (((List.enumFrom k args).filter
          (fun q => decide (q.1 ∈ ps.map TemplateParameter.index))).map (·.2),
       ((List.enumFrom k args).filter
          (fun q => !decide (q.1 ∈ ps.map TemplateParameter.index))).map (·.2))
  | [], ps, k, _, _ => by cases ps <;> rfl
  | a :: rest, [], k, hp, hk => by
    rw [show extractGo [] k (a :: rest) =
        (let r := extractGo [] (k + 1) rest
         (r.1, a :: r.2)) from rfl]
    rw [extractGo_spec rest [] (k + 1) hp (by intro p hp2; cases hp2)]
    simp
  | a :: rest, c :: ps2, k, hp, hk => by
    have htail : (ps2.map TemplateParameter.index).Pairwise (· < ·) :=
      (List.pairwise_cons.mp hp).2
    have hcps2 : ∀ p ∈ ps2, c.index < p.index := by
      intro p hmem
      exact (List.pairwise_cons.mp hp).1 p.index (List.mem_map_of_mem _ hmem)
    have henum : List.enumFrom k (a :: rest) = (k, a) :: List.enumFrom (k + 1) rest := rfl
    by_cases hci : c.index ≤ k
    · have hck : c.index = k := Nat.le_antisymm hci (hk c (List.mem_cons_self _ _))
      rw [show extractGo (c :: ps2) k (a :: rest) =
          (if c.index ≤ k then
            (let r := extractGo ps2 (k + 1) rest
             (a :: r.1, r.2))
          else
            (let r := extractGo (c :: ps2) (k + 1) rest
             (r.1, a :: r.2))) from rfl]
      rw [if_pos hci]
      rw [extractGo_spec rest ps2 (k + 1) htail
        (fun p hmem => Nat.succ_le_of_lt (hck ▸ hcps2 p hmem))]
      have hiff : ∀ q ∈ List.enumFrom (k + 1) rest,
          decide (q.1 ∈ (c :: ps2).map TemplateParameter.index) =
            decide (q.1 ∈ ps2.map TemplateParameter.index) := by
        intro q hq
        have hge : k + 1 ≤ q.1 := (List.mem_enumFrom hq).1
        have hne : q.1 ≠ c.index := by omega
        rw [decide_eq_decide]
        simp [List.mem_cons, hne]
      have hposf : (List.enumFrom (k + 1) rest).filter
            (fun q => decide (q.1 ∈ (c :: ps2).map TemplateParameter.index)) =
          (List.enumFrom (k + 1) rest).filter
            (fun q => decide (q.1 ∈ ps2.map TemplateParameter.index)) :=
        List.filter_congr hiff
      have hnegf : (List.enumFrom (k + 1) rest).filter
            (fun q => !decide (q.1 ∈ (c :: ps2).map TemplateParameter.index)) =
          (List.enumFrom (k + 1) rest).filter
            (fun q => !decide (q.1 ∈ ps2.map TemplateParameter.index)) :=
        List.filter_congr (fun q hq => by rw [hiff q hq])
      have hmemk : decide (k ∈ (c :: ps2).map TemplateParameter.index) = true := by
        rw [decide_eq_true_iff, List.map_cons, hck]
        exact List.mem_cons_self _ _
      rw [henum, List.filter_cons, List.filter_cons, hmemk, hposf, hnegf]
      rfl
    · have hkc : k + 1 ≤ c.index := Nat.succ_le_of_lt (Nat.lt_of_not_le (fun hcon => hci hcon))
      rw [show extractGo (c :: ps2) k (a :: rest) =
          (if c.index ≤ k then
            (let r := extractGo ps2 (k + 1) rest
             (a :: r.1, r.2))
          else
            (let r := extractGo (c :: ps2) (k + 1) rest
             (r.1, a :: r.2))) from rfl]
      rw [if_neg hci]
      rw [extractGo_spec rest (c :: ps2) (k + 1) hp
        (by
          intro p hmem
          rcases List.mem_cons.mp hmem with h | h
          · exact h ▸ hkc
          · exact Nat.le_of_lt (Nat.lt_of_le_of_lt hkc (hcps2 p h)))]
      have hmemk : decide (k ∈ (c :: ps2).map TemplateParameter.index) = false := by
        rw [decide_eq_false_iff_not]
        intro hmem
        rw [List.map_cons, List.mem_cons] at hmem
        rcases hmem with h | h
        · omega
        · rcases List.mem_map.mp h with ⟨p, hmem2, hidx⟩
          have := hcps2 p hmem2
          omega
      rw [henum, List.filter_cons, List.filter_cons, hmemk]
      rfl

/-- Claim C8: `extract_template_parameters` returns exactly the
arguments at the positions recorded as the template-parameter indices,
in their original order, and writes the remaining arguments back in
their original relative order.  The indices recorded by
`parse_definition_as_template` are strictly increasing (they are the
positions in the original parameter list), which is the hypothesis. -/
theorem extract_template_parameters_spec (t : TemplateDefinition) (args : List Expr)
    (hinc : (t.parameters.map TemplateParameter.index).Pairwise (· < ·)) :
    t.extract_template_parameters args =
      (((List.enumFrom 0 args).filter
          (fun q => decide (q.1 ∈ t.parameters.map TemplateParameter.index))).map (·.2),
       ((List.enumFrom 0 args).filter
          (fun q => !decide (q.1 ∈ t.parameters.map TemplateParameter.index))).map (·.2)) :=
  extractGo_spec args t.parameters 0 hinc (fun _ _ => Nat.zero_le _)

/-- Witness for `extract_template_parameters_spec`: a template with
slots at positions 0 and 2 of four arguments extracts `a, c` and leaves
`b, d`. -/
theorem extract_template_parameters_witness :
    ((tC8.parameters.map TemplateParameter.index).Pairwise (· < ·)) ∧
      tC8.extract_template_parameters [.var "a", .var "b", .var "c", .var "d"] =
        ([.var "a", .var "c"], [.var "b", .var "d"]) :=
  ⟨by decide,
   (extract_template_parameters_spec tC8 [.var "a", .var "b", .var "c", .var "d"]
     (by decide)).trans rfl⟩

/-- Running `transform_call` over a list of call sites keeps the
pending specialization buffer free of duplicate names, provided each
call site's produced definition carries its mangled name. -/
theorem runCalls_nodup (events : List CallSite) :
    ∀ gs : GlobalScope,
      (∀ e ∈ events, e.produced.prototype.name = e.mangled) →
      ((gs.instanced_templates.map (fun d => d.prototype.name)).Nodup) →
      (∀ d ∈ gs.instanced_templates,
          d.prototype.name ∈ gs.instantiated_templates) →
      ((runCalls gs events).instanced_templates.map
          (fun d => d.prototype.name)).Nodup ∧
        (∀ d ∈ (runCalls gs events).instanced_templates,
            d.prototype.name ∈ (runCalls gs events).instantiated_templates) := by
  induction events with
  | nil => exact fun gs _ h1 h2 => ⟨h1, h2⟩
  | cons e rest ih =>
    intro gs hn h1 h2
    have hrun : runCalls gs (e :: rest) = runCalls (transform_call gs e).1 rest := rfl
    rw [hrun]
    have hnrest : ∀ x ∈ rest, x.produced.prototype.name = x.mangled :=
      fun x hx => hn x (List.mem_cons_of_mem _ hx)
    cases hd : template_instance_declared gs e.mangled with
    | true =>
      have hstep : (transform_call gs e).1 = gs := by
        unfold transform_call
        rw [hd]
        rfl
      rw [hstep]
      exact ih gs hnrest h1 h2
    | false =>
      have hnotin : e.mangled ∉ gs.instantiated_templates := by
        have := hd
        unfold template_instance_declared at this
        exact of_decide_eq_false this
      have hstep : (transform_call gs e).1 =
          { gs with
            instantiated_templates :=
              setInsert gs.instantiated_templates e.produced.prototype.name
            instanced_templates := gs.instanced_templates ++ [e.produced] } := by
        unfold transform_call
        rw [hd]
        rfl
      rw [hstep]
      have hname : e.produced.prototype.name = e.mangled := hn e (List.mem_cons_self _ _)
      apply ih _ hnrest
      · rw [List.map_append]
        rw [List.nodup_append]
        refine ⟨h1, List.nodup_singleton _, ?_⟩
        intro x hx hx2
        rcases List.mem_map.mp hx with ⟨d, hd2, hdx⟩
        have hxe : x = e.mangled := by
          rcases List.mem_singleton.mp hx2 with h
          rw [h, List.map_singleton] at *
          exact hname
        exact hnotin (hxe ▸ hdx ▸ h2 d hd2)
      · intro d hmem
        rcases List.mem_append.mp hmem with h | h
        · have hold := h2 d h
          show d.prototype.name ∈ setInsert gs.instantiated_templates _
          unfold setInsert
          split
          · exact hold
          · exact List.mem_append_left _ hold
        · rw [List.mem_singleton.mp h]
          show e.produced.prototype.name ∈ setInsert gs.instantiated_templates _
          unfold setInsert
          split
          · next hmem2 => exact hmem2
          · exact List.mem_append_right _ (List.mem_singleton_self _)

/-- Claim C6: within one transform unit, at most one specialization
definition is ever registered per mangled name — the buffered
specializations carry pairwise distinct names — and once a mangled name
is declared, a later call site that produces the same name does not
change the scope at all and only rewrites its own call to the mangled
name. -/
theorem specialization_registered_once (events : List CallSite)
    (hn : ∀ e ∈ events, e.produced.prototype.name = e.mangled) :
    ((runCalls GlobalScope.new events).instanced_templates.map
        (fun d => d.prototype.name)).Nodup ∧
      (∀ pre e rest, events = pre ++ e :: rest →
          template_instance_declared (runCalls GlobalScope.new pre) e.mangled = true →
            transform_call (runCalls GlobalScope.new pre) e =
              (runCalls GlobalScope.new pre, e.mangled)) := by
  constructor
  · exact (runCalls_nodup events GlobalScope.new hn List.nodup_nil
      (fun d hmem => absurd hmem (List.not_mem_nil d))).1
  · intro pre e rest _ hdecl
    unfold transform_call
    rw [hdecl]
    rfl

/-- Witness for `specialization_registered_once`: processing the same
call site twice registers its definition once, and the second
occurrence leaves the scope untouched while rewriting to the mangled
name. -/
theorem specialization_registered_once_witness :
    (((runCalls GlobalScope.new [eventC6, eventC6]).instanced_templates.map
        (fun d => d.prototype.name)).Nodup) ∧
      transform_call (runCalls GlobalScope.new [eventC6]) eventC6 =
        (runCalls GlobalScope.new [eventC6], "_glslt_tpl_0123ab") := by
  constructor
  · exact (specialization_registered_once [eventC6, eventC6] (by decide)).1
  · exact (specialization_registered_once [eventC6, eventC6] (by decide)).2
      [eventC6] eventC6 [] rfl (by rfl)

/-- Inserting a fresh key into an `IndexMap` appends the pair. -/
theorem imInsert_fresh {α : Type} (m : List (String × α)) (k : String) (v : α)
    (h : k ∉ m.map Prod.fst) : imInsert m k v = m ++ [(k, v)] := by
  unfold imInsert
  rw [if_neg]
  intro hany
  rcases List.any_eq_true.mp hany with ⟨p, hp, heq⟩
  exact h (List.mem_map.mpr ⟨p, hp, (eq_of_beq heq).symm ▸ rfl⟩)

/-- Looking a key up past a prefix that does not contain it. -/
theorem imGet_append_right {α : Type} (acc l : List (String × α)) (k : String)
    (h : k ∉ acc.map Prod.fst) : imGet (acc ++ l) k = imGet l k := by
  induction acc with
  | nil => rfl
  | cons p rest ih =>
    have hk : p.1 ≠ k := by
      intro he
      exact h (List.mem_map.mpr ⟨p, List.mem_cons_self _ _, he⟩)
    show imGet (p :: (rest ++ l)) k = imGet l k
    unfold imGet
    rw [List.find?_cons_of_neg]
    · exact ih (fun hmem => h (List.mem_map.mpr
        (by rcases List.mem_map.mp hmem with ⟨q, hq, hqe⟩
            exact ⟨q, List.mem_cons_of_mem _ hq, hqe⟩)))
    · simp [hk]

/-- In an association list with duplicate-free keys, lookup finds the
stored value. -/
theorem imGet_mem_nodup {α : Type} (l : List (String × α)) (k : String) (v : α)
    (hmem : (k, v) ∈ l) (hn : (l.map Prod.fst).Nodup) : imGet l k = some v := by
  induction l with
  | nil => cases hmem
  | cons p rest ih =>
    rcases List.mem_cons.mp hmem with h | h
    · rw [← h]
      unfold imGet
      rw [List.find?_cons_of_pos _ (by simp)]
      rfl
    · have hk : p.1 ≠ k := by
        intro he
        have : p.1 ∈ rest.map Prod.fst := he ▸ List.mem_map.mpr ⟨(k, v), h, he ▸ rfl⟩
        exact (List.nodup_cons.mp hn).1 this
      unfold imGet
      rw [List.find?_cons_of_neg]
      · exact ih h (List.nodup_cons.mp hn).2
      · simp [hk]

/-- When the placeholder keys are pairwise distinct and the call passes
at most as many arguments as the pointer type has parameters, the
substitution-table construction never indexes out of bounds and builds
exactly the placeholder pairs. -/
theorem lambdaSubsGo_eq (prototype : FunctionPrototype) (src : List Expr) :
    ∀ (id : Nat) (acc : List (String × Expr)),
      id + src.length ≤ prototype.parameters.length →
      (∀ k ∈ (placeholderPairs prototype id src).map Prod.fst,
          k ∉ acc.map Prod.fst) →
      ((placeholderPairs prototype id src).map Prod.fst).Nodup →
      lambdaSubsGo prototype id acc src =
        some (acc ++ placeholderPairs prototype id src) := by
  induction src with
  | nil =>
    intro id acc _ _ _
    show some acc = some (acc ++ [])
    rw [List.append_nil]
  | cons v rest ih =>
    intro id acc hlen hdisj hnd
    cases hp : prototype.parameters.get? id with
    | none =>
      exfalso
      have hge := List.get?_eq_none.mp hp
      simp only [List.length_cons] at hlen
      omega
    | some p =>
      cases p with
      | named ty ident =>
        have hpairs : placeholderPairs prototype id (v :: rest) =
            [("_" ++ toString (id + 1), v), ("_" ++ ident, v)] ++
              placeholderPairs prototype (id + 1) rest := by
          show (match prototype.parameters.get? id with
                | some (.named _ ident) =>
                  [("_" ++ toString (id + 1), v), ("_" ++ ident, v)]
                | _ => [("_" ++ toString (id + 1), v)]) ++
              placeholderPairs prototype (id + 1) rest = _
          rw [hp]
        rw [hpairs] at hdisj hnd
        simp only [List.map_append, List.map_cons, List.map_nil] at hdisj hnd
        have hk1 : ("_" ++ toString (id + 1)) ∉ acc.map Prod.fst :=
          hdisj _ (by simp)
        have hk2acc : ("_" ++ ident) ∉ acc.map Prod.fst :=
          hdisj _ (by simp)
        have hnd1 := List.nodup_cons.mp hnd
        have hnd2 := List.nodup_cons.mp hnd1.2
        have hk2ne : ("_" ++ ident) ≠ ("_" ++ toString (id + 1)) := by
          intro he
          exact hnd1.1 (by rw [← he]; simp)
        have hk1rest : ("_" ++ toString (id + 1)) ∉
            (placeholderPairs prototype (id + 1) rest).map Prod.fst := by
          intro hmem
          exact hnd1.1 (by simp [hmem])
        have hk2rest : ("_" ++ ident) ∉
            (placeholderPairs prototype (id + 1) rest).map Prod.fst := hnd2.1
        have hstep : lambdaSubsGo prototype id acc (v :: rest) =
            lambdaSubsGo prototype (id + 1)
              (imInsert (imInsert acc ("_" ++ toString (id + 1)) v)
                ("_" ++ ident) v) rest := by
          show (match prototype.parameters.get? id with
                | none => none
                | some p =>
                  lambdaSubsGo prototype (id + 1)
                    (match p with
                     | .named _ ident =>
                       imInsert (imInsert acc ("_" ++ toString (id + 1)) v)
                         ("_" ++ ident) v
                     | .unnamed _ =>
                       imInsert acc ("_" ++ toString (id + 1)) v)
                    rest) = _
          rw [hp]
        have hk2' : ("_" ++ ident) ∉
            (acc ++ [("_" ++ toString (id + 1), v)]).map Prod.fst := by
          rw [List.map_append]
          intro hmem
          rcases List.mem_append.mp hmem with h | h
          · exact hk2acc h
          · simp at h
            exact hk2ne h
        rw [hstep, imInsert_fresh acc _ v hk1, imInsert_fresh _ _ v hk2']
        rw [ih (id + 1) ((acc ++ [("_" ++ toString (id + 1), v)]) ++
            [("_" ++ ident, v)])
          (by simp only [List.length_cons] at hlen; omega)
          (by
            intro k hkmem
            rw [List.map_append, List.map_append]
            intro hkacc
            rcases List.mem_append.mp hkacc with h | h
            · rcases List.mem_append.mp h with h2 | h2
              · exact hdisj k (by simp [hkmem]) h2
              · simp at h2
                exact hk1rest (h2 ▸ hkmem)
            · simp at h
              exact hk2rest (h ▸ hkmem))
          hnd2.2]
        rw [hpairs]
        simp
      | unnamed ty =>
        have hpairs : placeholderPairs prototype id (v :: rest) =
            [("_" ++ toString (id + 1), v)] ++
              placeholderPairs prototype (id + 1) rest := by
          show (match prototype.parameters.get? id with
                | some (.named _ ident) =>
                  [("_" ++ toString (id + 1), v), ("_" ++ ident, v)]
                | _ => [("_" ++ toString (id + 1), v)]) ++
              placeholderPairs prototype (id + 1) rest = _
          rw [hp]
        rw [hpairs] at hdisj hnd
        simp only [List.map_append, List.map_cons, List.map_nil] at hdisj hnd
        have hk1 : ("_" ++ toString (id + 1)) ∉ acc.map Prod.fst :=
          hdisj _ (by simp)
        have hnd1 := List.nodup_cons.mp hnd
        have hk1rest : ("_" ++ toString (id + 1)) ∉
            (placeholderPairs prototype (id + 1) rest).map Prod.fst := hnd1.1
        have hstep : lambdaSubsGo prototype id acc (v :: rest) =
            lambdaSubsGo prototype (id + 1)
              (imInsert acc ("_" ++ toString (id + 1)) v) rest := by
          show (match prototype.parameters.get? id with
                | none => none
                | some p =>
                  lambdaSubsGo prototype (id + 1)
                    (match p with
                     | .named _ ident =>
                       imInsert (imInsert acc ("_" ++ toString (id + 1)) v)
                         ("_" ++ ident) v
                     | .unnamed _ =>
                       imInsert acc ("_" ++ toString (id + 1)) v)
                    rest) = _
          rw [hp]
        rw [hstep, imInsert_fresh acc _ v hk1]
        rw [ih (id + 1) (acc ++ [("_" ++ toString (id + 1), v)])
          (by simp only [List.length_cons] at hlen; omega)
          (by
            intro k hkmem
            rw [List.map_append]
            intro hkacc
            rcases List.mem_append.mp hkacc with h | h
            · exact hdisj k (by simp [hkmem]) h
            · simp at h
              exact hk1rest (h ▸ hkmem))
          hnd1.2]
        rw [hpairs]
        simp

/-- One unfolding step of `placeholderPairs`. -/
theorem placeholderPairs_cons (prototype : FunctionPrototype) (id : Nat) (v : Expr)
    (rest : List Expr) :
    placeholderPairs prototype id (v :: rest) =
      (match prototype.parameters.get? id with
       | some (.named _ ident) =>
         [("_" ++ toString (id + 1), v), ("_" ++ ident, v)]
       | _ => [("_" ++ toString (id + 1), v)]) ++
        placeholderPairs prototype (id + 1) rest := rfl

/-- The numbered placeholder for position `i` is among the placeholder
pairs, bound to the argument at position `i`. -/
theorem placeholderPairs_mem_num (prototype : FunctionPrototype) :
    ∀ (src : List Expr) (id i : Nat) (hi : i < src.length),
      ("_" ++ toString (id + i + 1), src.get ⟨i, hi⟩) ∈
        placeholderPairs prototype id src := by
  intro src
  induction src with
  | nil => intro id i hi; exact absurd hi (Nat.not_lt_zero i)
  | cons v rest ih =>
    intro id i hi
    rw [placeholderPairs_cons]
    cases i with
    | zero =>
      apply List.mem_append_left
      cases hp : prototype.parameters.get? id with
      | some p => cases p <;> simp
      | none => simp
    | succ j =>
      have hj : j < rest.length := Nat.lt_of_succ_lt_succ hi
      apply List.mem_append_right
      have harith : id + (j + 1) + 1 = id + 1 + j + 1 := by omega
      rw [harith]
      exact ih (id + 1) j hj

/-- The named placeholder for a named parameter at position `i` is
among the placeholder pairs, bound to the argument at position `i`. -/
theorem placeholderPairs_mem_named (prototype : FunctionPrototype) :
    ∀ (src : List Expr) (id i : Nat) (hi : i < src.length) (ty ident : String),
      prototype.parameters.get? (id + i) = some (.named ty ident) →
      ("_" ++ ident, src.get ⟨i, hi⟩) ∈ placeholderPairs prototype id src := by
  intro src
  induction src with
  | nil => intro id i hi; exact absurd hi (Nat.not_lt_zero i)
  | cons v rest ih =>
    intro id i hi ty ident hp
    rw [placeholderPairs_cons]
    cases i with
    | zero =>
      apply List.mem_append_left
      rw [show id + 0 = id from rfl] at hp
      rw [hp]
      simp
    | succ j =>
      have hj : j < rest.length := Nat.lt_of_succ_lt_succ hi
      apply List.mem_append_right
      have harith : id + 1 + j = id + (j + 1) := by omega
      exact ih (id + 1) j hj ty ident (by rw [harith]; exact hp)

/-- Claim C10: placeholder substitution indexes the pointer-type
prototype's parameter list by call-argument position; when the call
passes at most as many arguments as the pointer type declares
parameters (and the placeholder keys are pairwise distinct, as the
identifier grammar guarantees), the indexing is in bounds — no panic,
modelled by `some` — and the placeholder `_<i+1>` (and `_<name>` for a
named parameter at position `i`) is replaced by the call's argument at
position `i`. -/
theorem lambda_placeholder_substitution (source : List Expr)
    (prototype : FunctionPrototype)
    (hlen : source.length ≤ prototype.parameters.length)
    (hkeys : ((placeholderPairs prototype 0 source).map Prod.fst).Nodup) :
    lambdaSubs source prototype = some (placeholderPairs prototype 0 source) ∧
      (∀ tgt, lambda_instantiate tgt source prototype =
          some (lambdaSubst (placeholderPairs prototype 0 source) tgt)) ∧
      (∀ i (hi : i < source.length),
          lambda_instantiate (.var ("_" ++ toString (i + 1))) source prototype =
            some (source.get ⟨i, hi⟩)) ∧
      (∀ i (hi : i < source.length) (ty ident : String),
          prototype.parameters.get? i = some (.named ty ident) →
            lambda_instantiate (.var ("_" ++ ident)) source prototype =
              some (source.get ⟨i, hi⟩)) := by
  have h1 : lambdaSubs source prototype =
      some (placeholderPairs prototype 0 source) := by
    have h := lambdaSubsGo_eq prototype source 0 []
      (by simpa using hlen) (fun k _ => by simp) hkeys
    rw [List.nil_append] at h
    exact h
  have h2 : ∀ tgt, lambda_instantiate tgt source prototype =
      some (lambdaSubst (placeholderPairs prototype 0 source) tgt) := by
    intro tgt
    unfold lambda_instantiate
    rw [h1]
    rfl
  refine ⟨h1, h2, ?_, ?_⟩
  · intro i hi
    rw [h2]
    have hmem := placeholderPairs_mem_num prototype source 0 i hi
    rw [show (0 : Nat) + i + 1 = i + 1 from by omega] at hmem
    have hget := imGet_mem_nodup _ _ _ hmem hkeys
    show some (match imGet (placeholderPairs prototype 0 source)
        ("_" ++ toString (i + 1)) with
      | some repl => repl
      | none => Expr.var ("_" ++ toString (i + 1))) = _
    rw [hget]
  · intro i hi ty ident hp
    rw [h2]
    have hmem := placeholderPairs_mem_named prototype source 0 i hi ty ident
      (by rw [show (0 : Nat) + i = i from by omega]; exact hp)
    have hget := imGet_mem_nodup _ _ _ hmem hkeys
    show some (match imGet (placeholderPairs prototype 0 source)
        ("_" ++ ident) with
      | some repl => repl
      | none => Expr.var ("_" ++ ident)) = _
    rw [hget]

/-- Witness for `lambda_placeholder_substitution`: the call `cb(3)`
against `int IntF(int x);` replaces `_1` and `_x` by `3`. -/
theorem lambda_placeholder_witness :
    ([Expr.intConst 3].length ≤ protoIntF.parameters.length) ∧
      (((placeholderPairs protoIntF 0 [Expr.intConst 3]).map Prod.fst).Nodup) ∧
      lambda_instantiate (.var "_1") [Expr.intConst 3] protoIntF =
        some (.intConst 3) ∧
      lambda_instantiate (.var "_x") [Expr.intConst 3] protoIntF =
        some (.intConst 3) := by
  refine ⟨by decide, by decide, ?_, ?_⟩
  · exact (lambda_placeholder_substitution [Expr.intConst 3] protoIntF
      (by decide) (by decide)).2.2.1 0 (by decide)
  · exact (lambda_placeholder_substitution [Expr.intConst 3] protoIntF
      (by decide) (by decide)).2.2.2 0 (by decide) "int" "x" rfl

/-- Membership in an `IndexMap` after insert: the new pair or an old
entry. -/
theorem imInsert_mem {α : Type} (m : List (String × α)) (k : String) (v : α)
    (kv : String × α) (h : kv ∈ imInsert m k v) : kv = (k, v) ∨ kv ∈ m := by
  unfold imInsert at h
  split at h
  · rcases List.mem_map.mp h with ⟨p, hp, hpe⟩
    by_cases hk : p.1 == k
    · rw [if_pos hk] at hpe
      exact Or.inl hpe.symm
    · rw [if_neg hk] at hpe
      exact Or.inr (hpe ▸ hp)
  · rcases List.mem_append.mp h with h2 | h2
    · exact Or.inr h2
    · exact Or.inl (List.mem_singleton.mp h2)

/-- Insert keeps the key list duplicate-free. -/
theorem imInsert_keys_nodup {α : Type} (m : List (String × α)) (k : String) (v : α)
    (h : (m.map Prod.fst).Nodup) : ((imInsert m k v).map Prod.fst).Nodup := by
  unfold imInsert
  split
  · have : (m.map (fun p => if p.1 == k then (k, v) else p)).map Prod.fst =
        m.map Prod.fst := by
      rw [List.map_map]
      apply List.map_congr_left
      intro p _
      by_cases hk : p.1 == k
      · simp only [Function.comp]
        rw [if_pos hk]
        exact (eq_of_beq hk).symm
      · simp only [Function.comp]
        rw [if_neg hk]
    rw [this]
    exact h
  · next hany =>
    rw [List.map_append]
    rw [List.nodup_append]
    refine ⟨h, List.nodup_singleton _, ?_⟩
    intro x hx hx2
    simp at hx2
    rw [hx2] at hx
    apply hany
    rcases List.mem_map.mp hx with ⟨p, hp, hpe⟩
    exact List.any_eq_true.mpr ⟨p, hp, beq_iff_eq.mpr hpe⟩

/-- Lookup on a cons cell. -/
theorem imGet_cons {α : Type} (a : String × α) (rest : List (String × α))
    (k : String) :
    imGet (a :: rest) k = if a.1 == k then some a.2 else imGet rest k := by
  simp only [imGet, List.find?_cons]
  cases ha : (a.1 == k) <;> simp [ha]

/-- A key absent from the map yields no lookup result. -/
theorem imGet_not_mem {α : Type} (m : List (String × α)) (k : String)
    (h : k ∉ m.map Prod.fst) : imGet m k = none := by
  induction m with
  | nil => rfl
  | cons p rest ih =>
    have hpk : ¬(p.1 == k) = true := by
      simp only [beq_iff_eq]
      intro he
      exact h (List.mem_map.mpr ⟨p, List.mem_cons_self _ _, he⟩)
    rw [imGet_cons, if_neg hpk]
    refine ih ?_
    intro hmem
    rcases List.mem_map.mp hmem with ⟨q, hq, hqe⟩
    exact h (List.mem_map.mpr ⟨q, List.mem_cons_of_mem _ hq, hqe⟩)

/-- Presence of the key makes lookup succeed. -/
theorem imGet_isSome_of_any {α : Type} (m : List (String × α)) (k : String)
    (h : (m.any fun p => p.1 == k) = true) : ∃ w, imGet m k = some w := by
  induction m with
  | nil => cases h
  | cons p rest ih =>
    by_cases hk : (p.1 == k) = true
    · exact ⟨p.2, by rw [imGet_cons, if_pos hk]⟩
    · have h2 : (rest.any fun p => p.1 == k) = true := by
        rcases List.any_eq_true.mp h with ⟨q, hq, hbe⟩
        rcases List.mem_cons.mp hq with he | he
        · exact absurd (he ▸ hbe) hk
        · exact List.any_eq_true.mpr ⟨q, he, hbe⟩
      rcases ih h2 with ⟨w, hw⟩
      exact ⟨w, by rw [imGet_cons, if_neg hk]; exact hw⟩

/-- Lookup in the overwrite image of an `IndexMap` insert. -/
theorem imGet_map_overwrite {α : Type} (k : String) (v : α) :
    ∀ m : List (String × α),
      imGet (m.map (fun p => if p.1 == k then (k, v) else p)) k =
        (imGet m k).map (fun _ => v) := by
  intro m
  induction m with
  | nil => rfl
  | cons p rest ih =>
    rw [List.map_cons]
    by_cases hk : (p.1 == k) = true
    · rw [if_pos hk, imGet_cons, imGet_cons, if_pos hk]
      rw [if_pos (by simp)]
      rfl
    · rw [if_neg hk, imGet_cons, imGet_cons, if_neg hk, if_neg hk]
      exact ih

/-- As above, for a different key: untouched. -/
theorem imGet_map_overwrite_ne {α : Type} (k2 k : String) (v : α) (hne : k2 ≠ k) :
    ∀ m : List (String × α),
      imGet (m.map (fun p => if p.1 == k2 then (k2, v) else p)) k = imGet m k := by
  intro m
  induction m with
  | nil => rfl
  | cons p rest ih =>
    rw [List.map_cons]
    by_cases hk : (p.1 == k2) = true
    · have hp1 : ¬(p.1 == k) = true := by
        simp only [beq_iff_eq]
        rw [eq_of_beq hk]
        exact hne
      rw [if_pos hk, imGet_cons, imGet_cons, if_neg hp1]
      rw [if_neg (by simp [hne])]
      exact ih
    · rw [if_neg hk, imGet_cons, imGet_cons]
      by_cases hpk : (p.1 == k) = true
      · rw [if_pos hpk, if_pos hpk]
      · rw [if_neg hpk, if_neg hpk]
        exact ih

/-- Appending a pair with a different key does not change lookup. -/
theorem imGet_append_single_ne {α : Type} (m : List (String × α))
    (k2 k : String) (v : α) (hne : k2 ≠ k) :
    imGet (m ++ [(k2, v)]) k = imGet m k := by
  induction m with
  | nil =>
    show imGet [(k2, v)] k = imGet ([] : List (String × α)) k
    rw [imGet_cons, if_neg (by simp [hne])]
  | cons p rest ih =>
    show imGet (p :: (rest ++ [(k2, v)])) k = imGet (p :: rest) k
    rw [imGet_cons, imGet_cons]
    by_cases hpk : (p.1 == k) = true
    · rw [if_pos hpk, if_pos hpk]
    · rw [if_neg hpk, if_neg hpk]
      exact ih

/-- Lookup after inserting the same key. -/
theorem imGet_imInsert_self {α : Type} (m : List (String × α)) (k : String) (v : α) :
    imGet (imInsert m k v) k = some v := by
  unfold imInsert
  split
  · next hany =>
    rcases imGet_isSome_of_any m k hany with ⟨w, hw⟩
    rw [imGet_map_overwrite k v m, hw]
    rfl
  · next hany =>
    have hnk : k ∉ m.map Prod.fst := by
      intro hmem
      apply hany
      rcases List.mem_map.mp hmem with ⟨p, hp, hpe⟩
      exact List.any_eq_true.mpr ⟨p, hp, beq_iff_eq.mpr hpe⟩
    rw [imGet_append_right m _ k hnk, imGet_cons, if_pos (by simp)]

/-- Lookup after inserting a different key. -/
theorem imGet_imInsert_ne {α : Type} (m : List (String × α)) (k2 k : String)
    (v : α) (hne : k2 ≠ k) : imGet (imInsert m k2 v) k = imGet m k := by
  unfold imInsert
  split
  · exact imGet_map_overwrite_ne k2 k v hne m
  · exact imGet_append_single_ne m k2 k v hne

/-- A successful lookup is a member. -/
theorem imGet_mem {α : Type} (m : List (String × α)) (k : String) (v : α)
    (h : imGet m k = some v) : (k, v) ∈ m := by
  induction m with
  | nil => cases h
  | cons p rest ih =>
    rw [imGet_cons] at h
    by_cases hpk : (p.1 == k) = true
    · rw [if_pos hpk] at h
      have hk : p.1 = k := eq_of_beq hpk
      have hv : p.2 = v := Option.some_injective _ h
      have : (k, v) = p := by
        rw [← hk, ← hv]
      rw [this]
      exact List.mem_cons_self _ _
    · rw [if_neg hpk] at h
      exact List.mem_cons_of_mem _ (ih h)

mutual

/-- Every entry the capturer accumulates is a symbol-table binding, and
the captured map keeps duplicate-free keys. -/
theorem capturer_inv_expr (st : List (String × DeclaredSymbol))
    (cap : List (String × DeclaredSymbol)) (e : Expr)
    (hP : ∀ kv ∈ cap, imGet st kv.1 = some kv.2)
    (hQ : (cap.map Prod.fst).Nodup) :
    (∀ kv ∈ (capturerVisit st cap e).1, imGet st kv.1 = some kv.2) ∧
      ((capturerVisit st cap e).1.map Prod.fst).Nodup :=
  match e with
  | .var ident => by
    show (∀ kv ∈ (match imGet st ident with
          | some sb => (imInsert cap ident sb, Expr.var sb.gen_id)
          | none => (cap, Expr.var ident)).1, imGet st kv.1 = some kv.2) ∧
      ((match imGet st ident with
          | some sb => (imInsert cap ident sb, Expr.var sb.gen_id)
          | none => (cap, Expr.var ident)).1.map Prod.fst).Nodup
    cases hg : imGet st ident with
    | some sb =>
      constructor
      · intro kv hkv
        rcases imInsert_mem cap ident sb kv hkv with h | h
        · rw [h]
          exact hg
        · exact hP kv h
      · exact imInsert_keys_nodup cap ident sb hQ
    | none => exact ⟨hP, hQ⟩
  | .intConst v => ⟨hP, hQ⟩
  | .binary op l r => by
    have h1 := capturer_inv_expr st cap l hP hQ
    have h2 := capturer_inv_expr st (capturerVisit st cap l).1 r h1.1 h1.2
    exact h2
  | .funCall n args => capturer_inv_list st cap args hP hQ

theorem capturer_inv_list (st : List (String × DeclaredSymbol))
    (cap : List (String × DeclaredSymbol)) (es : List Expr)
    (hP : ∀ kv ∈ cap, imGet st kv.1 = some kv.2)
    (hQ : (cap.map Prod.fst).Nodup) :
    (∀ kv ∈ (capturerVisitList st cap es).1, imGet st kv.1 = some kv.2) ∧
      ((capturerVisitList st cap es).1.map Prod.fst).Nodup :=
  match es with
  | [] => ⟨hP, hQ⟩
  | e :: rest => by
    have h1 := capturer_inv_expr st cap e hP hQ
    exact capturer_inv_list st (capturerVisit st cap e).1 rest h1.1 h1.2

end

/-- When every captured key resolves in the symbol table, the
`CapturedParameter` reconstruction succeeds and rebuilds each entry
from the symbol-table binding. -/
theorem mapM_capture (st : List (String × DeclaredSymbol)) :
    ∀ cap : List (String × DeclaredSymbol),
      (∀ kv ∈ cap, imGet st kv.1 = some kv.2) →
      cap.mapM (fun kv =>
          (imGet st kv.1).map (fun declared =>
            (kv.1,
             { ident := kv.1
               symbol_id := declared.symbol_id
               gen_id := declared.gen_id
               decl_type := declared.decl_type
               array := declared.array : CapturedParameter }))) =
        some (cap.map (fun kv =>
          (kv.1,
           { ident := kv.1
             symbol_id := kv.2.symbol_id
             gen_id := kv.2.gen_id
             decl_type := kv.2.decl_type
             array := kv.2.array : CapturedParameter }))) := by
  intro cap
  induction cap with
  | nil => intro _; rfl
  | cons kv rest ih =>
    intro hP
    have hhead := hP kv (List.mem_cons_self _ _)
    have htail := ih (fun x hx => hP x (List.mem_cons_of_mem _ hx))
    rw [List.mapM_cons, hhead, htail]
    rfl

/-- Inserting capture records keyed by their own `gen_id` preserves the
property that a key maps to a symbol whose `gen_id` is that key. -/
theorem foldIns_pres (pcs : List CapturedParameter) :
    ∀ (m : List (String × DeclaredSymbol)) (k : String),
      (∃ d, imGet m k = some d ∧ d.gen_id = k) →
      ∃ d, imGet (pcs.foldl (fun acc cp =>
          imInsert acc cp.gen_id
            { symbol_id := cp.symbol_id
              gen_id := cp.gen_id
              decl_type := cp.decl_type
              array := cp.array }) m) k = some d ∧ d.gen_id = k := by
  induction pcs with
  | nil => exact fun m k h => h
  | cons cp rest ih =>
    intro m k h
    apply ih
    by_cases he : cp.gen_id = k
    · refine ⟨{ symbol_id := cp.symbol_id, gen_id := cp.gen_id,
                decl_type := cp.decl_type, array := cp.array }, ?_, he⟩
      rw [← he]
      exact imGet_imInsert_self m cp.gen_id _
    · rcases h with ⟨d, hd, hgen⟩
      exact ⟨d, by rw [imGet_imInsert_ne m cp.gen_id k _ he]; exact hd, hgen⟩

/-- After the merge, every parent capture's `gen_id` maps to a symbol
carrying that same `gen_id`. -/
theorem merge_lookup_gen (symbol_table : List (String × DeclaredSymbol))
    (pc : List CapturedParameter) :
    ∀ cp ∈ pc,
      ∃ d, imGet (mergeSymbolTable symbol_table pc) cp.gen_id = some d ∧
        d.gen_id = cp.gen_id := by
  suffices h : ∀ (pcs : List CapturedParameter)
      (m : List (String × DeclaredSymbol)), ∀ cp ∈ pcs,
      ∃ d, imGet (pcs.foldl (fun acc cp =>
          imInsert acc cp.gen_id
            { symbol_id := cp.symbol_id
              gen_id := cp.gen_id
              decl_type := cp.decl_type
              array := cp.array }) m) cp.gen_id = some d ∧
        d.gen_id = cp.gen_id by
    intro cp hmem
    exact h pc symbol_table cp hmem
  intro pcs
  induction pcs with
  | nil => intro m cp hmem; cases hmem
  | cons c rest ih =>
    intro m cp hmem
    rcases List.mem_cons.mp hmem with he | hmem2
    · subst he
    
      apply foldIns_pres rest
      exact ⟨{ symbol_id := cp.symbol_id, gen_id := cp.gen_id,
               decl_type := cp.decl_type, array := cp.array },
             imGet_imInsert_self m cp.gen_id _, rfl⟩
    · exact ih (imInsert m c.gen_id _) cp hmem2

/-- The parent-capture merge into the captured map preserves
duplicate-free keys and the invariant that each entry's `gen_id` is the
`gen_id` of the symbol its key resolves to. -/
theorem outer_fold_inv (st : List (String × DeclaredSymbol)) :
    ∀ pcs : List CapturedParameter,
      (∀ cp ∈ pcs, ∃ d, imGet st cp.gen_id = some d ∧ d.gen_id = cp.gen_id) →
      ∀ acc : List (String × CapturedParameter),
      ((acc.map Prod.fst).Nodup) →
      (∀ kv ∈ acc, ∃ d, imGet st kv.1 = some d ∧ kv.2.gen_id = d.gen_id) →
      (((pcs.foldl (fun acc outer =>
            if (imGet acc outer.ident).isSome then acc
            else imInsert acc outer.gen_id { outer with ident := outer.gen_id })
          acc).map Prod.fst).Nodup) ∧
        (∀ kv ∈ pcs.foldl (fun acc outer =>
              if (imGet acc outer.ident).isSome then acc
              else imInsert acc outer.gen_id { outer with ident := outer.gen_id })
            acc,
          ∃ d, imGet st kv.1 = some d ∧ kv.2.gen_id = d.gen_id) := by
  intro pcs
  induction pcs with
  | nil => exact fun _ acc h1 h2 => ⟨h1, h2⟩
  | cons outer rest ih =>
    intro hpcs acc h1 h2
    have hrest : ∀ cp ∈ rest, ∃ d, imGet st cp.gen_id = some d ∧
        d.gen_id = cp.gen_id :=
      fun cp hmem => hpcs cp (List.mem_cons_of_mem _ hmem)
    simp only [List.foldl_cons]
    by_cases hs : (imGet acc outer.ident).isSome
    · rw [if_pos hs]
      exact ih hrest acc h1 h2
    · rw [if_neg hs]
      apply ih hrest
      · exact imInsert_keys_nodup acc outer.gen_id _ h1
      · intro kv hkv
        rcases imInsert_mem acc outer.gen_id _ kv hkv with h | h
        · rcases hpcs outer (List.mem_cons_self _ _) with ⟨d, hd, hdg⟩
          refine ⟨d, ?_, ?_⟩
          · rw [h]
            exact hd
          · rw [h]
            exact hdg.symm
        · exact h2 kv h

/-- Transitivity of the specialization-signature ordering. -/
theorem capLe_trans : ∀ a b c : CapturedParameter,
    (decide (a.symbol_id ≤ b.symbol_id)) = true →
    (decide (b.symbol_id ≤ c.symbol_id)) = true →
    (decide (a.symbol_id ≤ c.symbol_id)) = true := by
  intro a b c hab hbc
  simp only [decide_eq_true_eq] at hab hbc ⊢
  omega

/-- Totality of the specialization-signature ordering. -/
theorem capLe_total : ∀ a b : CapturedParameter,
    ((decide (a.symbol_id ≤ b.symbol_id)) || (decide (b.symbol_id ≤ a.symbol_id))) =
      true := by
  intro a b
  rcases Nat.le_total a.symbol_id b.symbol_id with h | h <;> simp [h]

/-- Claim C3: for every local scope created for a template call, the
computed captured-parameter list (own captures from the
template-argument expressions merged with the parent scope's captures)
is sorted by `symbol_id` ascending and contains no two entries with the
same `gen_id`.  The hypotheses are the symbol-table invariants the
instantiator maintains: the merged symbol table assigns pairwise
distinct `gen_id`s to its entries. -/
theorem captures_sorted_nodup (symbol_table : List (String × DeclaredSymbol))
    (parentCaptured : List CapturedParameter) (template_parameters : List Expr)
    (hgen : (mergeSymbolTable symbol_table parentCaptured).Pairwise
        (fun a b => a.2.gen_id ≠ b.2.gen_id)) :
    ∃ L, localScopeCaptures symbol_table parentCaptured template_parameters =
        some L ∧
      L.Pairwise (fun a b => a.symbol_id ≤ b.symbol_id) ∧
      (L.map (fun c => c.gen_id)).Nodup := by
  have hinv := capturer_inv_list (mergeSymbolTable symbol_table parentCaptured) []
    template_parameters (fun kv h => absurd h (List.not_mem_nil kv)) List.nodup_nil
  have hmapm := mapM_capture (mergeSymbolTable symbol_table parentCaptured)
    ((capturerVisitList (mergeSymbolTable symbol_table parentCaptured) []
      template_parameters).1) hinv.1
  have hownKeys : ((((capturerVisitList (mergeSymbolTable symbol_table parentCaptured)
        [] template_parameters).1).map (fun kv =>
          (kv.1,
           { ident := kv.1
             symbol_id := kv.2.symbol_id
             gen_id := kv.2.gen_id
             decl_type := kv.2.decl_type
             array := kv.2.array : CapturedParameter }))).map Prod.fst).Nodup := by
    rw [List.map_map]
    have heq : ∀ kv ∈ (capturerVisitList (mergeSymbolTable symbol_table parentCaptured)
        [] template_parameters).1,
        (Prod.fst ∘ fun kv =>
          (kv.1,
           { ident := kv.1
             symbol_id := kv.2.symbol_id
             gen_id := kv.2.gen_id
             decl_type := kv.2.decl_type
             array := kv.2.array : CapturedParameter })) kv = Prod.fst kv :=
      fun kv _ => rfl
    rw [List.map_congr_left heq]
    exact hinv.2
  have hownVals : ∀ kv ∈ (((capturerVisitList (mergeSymbolTable symbol_table
        parentCaptured) [] template_parameters).1).map (fun kv =>
          (kv.1,
           { ident := kv.1
             symbol_id := kv.2.symbol_id
             gen_id := kv.2.gen_id
             decl_type := kv.2.decl_type
             array := kv.2.array : CapturedParameter }))),
      ∃ d, imGet (mergeSymbolTable symbol_table parentCaptured) kv.1 = some d ∧
        kv.2.gen_id = d.gen_id := by
    intro kv hkv
    rcases List.mem_map.mp hkv with ⟨kv0, hkv0, hkve⟩
    refine ⟨kv0.2, ?_, ?_⟩
    · rw [← hkve]
      exact hinv.1 kv0 hkv0
    · rw [← hkve]
  have houter := outer_fold_inv (mergeSymbolTable symbol_table parentCaptured)
    parentCaptured (merge_lookup_gen symbol_table parentCaptured) _ hownKeys hownVals
  refine ⟨(((parentCaptured.foldl (fun (acc : List (String × CapturedParameter)) (outer : CapturedParameter) =>
      if (imGet acc outer.ident).isSome then acc
      else imInsert acc outer.gen_id { outer with ident := outer.gen_id })
      (((capturerVisitList (mergeSymbolTable symbol_table parentCaptured) []
        template_parameters).1).map (fun kv =>
          (kv.1,
           { ident := kv.1
             symbol_id := kv.2.symbol_id
             gen_id := kv.2.gen_id
             decl_type := kv.2.decl_type
             array := kv.2.array : CapturedParameter })))).map (fun p : String × CapturedParameter => p.2)).mergeSort
    (fun a b : CapturedParameter => a.symbol_id ≤ b.symbol_id)), ?_, ?_, ?_⟩
  · show (match ((capturerVisitList (mergeSymbolTable symbol_table parentCaptured)
          [] template_parameters).1).mapM (fun kv =>
            (imGet (mergeSymbolTable symbol_table parentCaptured) kv.1).map
              (fun declared =>
                (kv.1,
                 { ident := kv.1
                   symbol_id := declared.symbol_id
                   gen_id := declared.gen_id
                   decl_type := declared.decl_type
                   array := declared.array : CapturedParameter }))) with
        | none => none
        | some own =>
          some (((parentCaptured.foldl (fun (acc : List (String × CapturedParameter)) (outer : CapturedParameter) =>
              if (imGet acc outer.ident).isSome then acc
              else imInsert acc outer.gen_id
                { outer with ident := outer.gen_id }) own).map (fun p : String × CapturedParameter => p.2)).mergeSort
            (fun a b : CapturedParameter => a.symbol_id ≤ b.symbol_id))) = _
    rw [hmapm]
  · have hs := List.sorted_mergeSort capLe_trans capLe_total
      (((parentCaptured.foldl (fun (acc : List (String × CapturedParameter)) (outer : CapturedParameter) =>
          if (imGet acc outer.ident).isSome then acc
          else imInsert acc outer.gen_id { outer with ident := outer.gen_id })
        (((capturerVisitList (mergeSymbolTable symbol_table parentCaptured) []
          template_parameters).1).map (fun kv =>
            (kv.1,
             { ident := kv.1
               symbol_id := kv.2.symbol_id
               gen_id := kv.2.gen_id
               decl_type := kv.2.decl_type
               array := kv.2.array : CapturedParameter })))).map (fun p : String × CapturedParameter => p.2)))
    exact hs.imp (fun h => of_decide_eq_true h)
  · have hpairs := houter.1
    have hkeysPW := (List.pairwise_map.mp houter.1)
    have hgens : (parentCaptured.foldl (fun (acc : List (String × CapturedParameter)) (outer : CapturedParameter) =>
        if (imGet acc outer.ident).isSome then acc
        else imInsert acc outer.gen_id { outer with ident := outer.gen_id })
        (((capturerVisitList (mergeSymbolTable symbol_table parentCaptured) []
          template_parameters).1).map (fun kv =>
            (kv.1,
             { ident := kv.1
               symbol_id := kv.2.symbol_id
               gen_id := kv.2.gen_id
               decl_type := kv.2.decl_type
               array := kv.2.array : CapturedParameter })))).Pairwise
        (fun a b => a.2.gen_id ≠ b.2.gen_id) := by
      refine hkeysPW.imp_of_mem ?_
      intro a b ha hb hne heq
      rcases houter.2 a ha with ⟨da, hda, hga⟩
      rcases houter.2 b hb with ⟨db, hdb, hgb⟩
      have hmema := imGet_mem _ a.1 da hda
      have hmemb := imGet_mem _ b.1 db hdb
      have hddne : ((a.1, da) : String × DeclaredSymbol) ≠ (b.1, db) := by
        intro hcon
        rw [Prod.mk.injEq] at hcon
        exact hne hcon.1
      have hsym : Symmetric (fun p q : String × DeclaredSymbol =>
          p.2.gen_id ≠ q.2.gen_id) := fun p q hpq h => hpq h.symm
      exact (hgen.forall hsym hmema hmemb hddne) (by rw [← hga, ← hgb, heq])
    have hvalsNodup : (((parentCaptured.foldl (fun (acc : List (String × CapturedParameter)) (outer : CapturedParameter) =>
        if (imGet acc outer.ident).isSome then acc
        else imInsert acc outer.gen_id { outer with ident := outer.gen_id })
        (((capturerVisitList (mergeSymbolTable symbol_table parentCaptured) []
          template_parameters).1).map (fun kv =>
            (kv.1,
             { ident := kv.1
               symbol_id := kv.2.symbol_id
               gen_id := kv.2.gen_id
               decl_type := kv.2.decl_type
               array := kv.2.array : CapturedParameter })))).map (fun p : String × CapturedParameter => p.2)).map
        (fun c => c.gen_id)).Nodup := by
      rw [List.map_map]
      exact List.pairwise_map.mpr hgens
    have hperm := List.mergeSort_perm ((parentCaptured.foldl (fun (acc : List (String × CapturedParameter)) (outer : CapturedParameter) =>
        if (imGet acc outer.ident).isSome then acc
        else imInsert acc outer.gen_id { outer with ident := outer.gen_id })
        (((capturerVisitList (mergeSymbolTable symbol_table parentCaptured) []
          template_parameters).1).map (fun kv =>
            (kv.1,
             { ident := kv.1
               symbol_id := kv.2.symbol_id
               gen_id := kv.2.gen_id
               decl_type := kv.2.decl_type
               array := kv.2.array : CapturedParameter })))).map (fun p : String × CapturedParameter => p.2))
      (fun a b : CapturedParameter => a.symbol_id ≤ b.symbol_id)
    exact ((hperm.map (fun c => c.gen_id)).nodup_iff).mpr hvalsNodup

/-- Membership in the successor list is exactly edge membership. -/
theorem mem_succs (edges : List (Nat × Nat)) (u s : Nat) :
    s ∈ succs edges u ↔ (u, s) ∈ edges := by
  simp only [succs, List.mem_map, List.mem_filter, beq_iff_eq]
  constructor
  · rintro ⟨⟨a, b⟩, ⟨he, he1⟩, he2⟩
    cases he1
    cases he2
    exact he
  · intro h
    exact ⟨(u, s), ⟨h, rfl⟩, rfl⟩

/-- `before` is stable under appending on the right. -/
theorem before_append_right (s d : Nat) (l l' : List Nat) (h : before s d l) :
    before s d (l ++ l') := by
  obtain ⟨l1, l2, hl, hs⟩ := h
  exact ⟨l1, l2 ++ l', by rw [hl, List.append_assoc, List.cons_append], hs⟩

/-- `before` is stable under prepending on the left. -/
theorem before_append_left (s d : Nat) (l l' : List Nat) (h : before s d l') :
    before s d (l ++ l') := by
  obtain ⟨l1, l2, hl, hs⟩ := h
  exact ⟨l ++ l1, l2, by rw [hl, List.append_assoc], List.mem_append_right l hs⟩

/-- An element of the left block precedes any element of the right
block. -/
theorem before_of_mem_append (s d : Nat) (l l' : List Nat) (hs : s ∈ l)
    (hd : d ∈ l') : before s d (l ++ l') := by
  obtain ⟨t1, t2, ht⟩ := List.append_of_mem hd
  exact ⟨l ++ t1, t2, by rw [ht, List.append_assoc], List.mem_append_left t1 hs⟩

/-- A strictly edge-decreasing rank function rules out directed
cycles. -/
theorem acyclic_of_rank (edges : List (Nat × Nat)) (rank : Nat → Nat)
    (h : ∀ e ∈ edges, rank e.2 < rank e.1) : Acyclic edges := by
  have key : ∀ a b : Nat, Relation.TransGen (edgeRel edges) a b → rank b < rank a := by
    intro a b hab
    induction hab with
    | single h1 => exact h _ h1
    | tail _ h2 ih => exact lt_trans (h _ h2) ih
  intro n hn
  exact lt_irrefl _ (key n n hn)

/-- C4 (counterexample to the claim as stated): ingesting the mutually
recursive `int f() { return g(); }`, `int g() { return f(); }` and
`void main() { f(); }` produces the cyclic dependency graph `dagC4`,
and the minifying unit's output order `g, f, main` puts `g` before `f`
even though `g` has the incoming edge `g → f`: the post-order promise
fails on cyclic graphs. -/
theorem min_unit_ordering_counterexample :
    (do
      let d1 ← extend_dag_function [] DependencyDag.empty fDefC4
      let d2 ← extend_dag_function [] d1 gDefC4
      extend_dag_function [] d2 mainDefC4) = some dagC4
    ∧ ¬ claimOrderingC4 dagC4 storeC4 ["main"] := by
  constructor
  · rfl
  · unfold claimOrderingC4
    decide

/-- Soundness of the sibling sweep `dfsStep`: given the post-order
soundness of the sub-traversal `f`, sweeping a successor list of the
gray node `u` preserves the visited-list invariants, visits every
listed node, and every emitted node's successors are already black or
emitted earlier in the sweep. -/
theorem dfsStep_sound (edges : List (Nat × Nat)) (N fuel : Nat) (u : Nat)
    (G : List Nat)
    (f : List Nat → Nat → List Nat × List Nat)
    (hf : ∀ (w : Nat) (G2 B vis : List Nat), w < N →
      vis.Nodup → (∀ v ∈ vis, v < N) → N + 1 ≤ fuel + vis.length →
      vis.Perm (G2 ++ B) →
      (∀ g ∈ G2, Relation.TransGen (edgeRel edges) g w) →
      (f vis w).1.Nodup ∧ (∀ v ∈ (f vis w).1, v < N) ∧
        (f vis w).1.Perm ((f vis w).2 ++ vis) ∧ w ∈ (f vis w).1 ∧
        (∀ d ∈ (f vis w).2, ∀ s ∈ succs edges d,
          s ∈ B ∨ before s d (f vis w).2))
    (hu : u < N)
    (hedges : ∀ e ∈ edges, e.1 < N ∧ e.2 < N)
    (hG : ∀ g ∈ G, Relation.TransGen (edgeRel edges) g u) :
    ∀ (vs : List Nat) (B vis : List Nat),
      (∀ s ∈ vs, (u, s) ∈ edges) →
      vis.Nodup → (∀ v ∈ vis, v < N) → N + 1 ≤ fuel + vis.length →
      vis.Perm ((u :: G) ++ B) →
      (dfsStep f vis vs).1.Nodup ∧
        (∀ v ∈ (dfsStep f vis vs).1, v < N) ∧
        (dfsStep f vis vs).1.Perm ((dfsStep f vis vs).2 ++ vis) ∧
        (∀ s ∈ vs, s ∈ (dfsStep f vis vs).1) ∧
        (∀ d ∈ (dfsStep f vis vs).2, ∀ s ∈ succs edges d,
          s ∈ B ∨ before s d (dfsStep f vis vs).2) := by
  intro vs
  induction vs with
  | nil =>
    intro B vis hvs hnd hbd hfl hperm
    refine ⟨hnd, hbd, List.Perm.refl vis, ?_, ?_⟩
    · intro s hs
      cases hs
    · intro d hd
      cases hd
  | cons v vs ih =>
    intro B vis hvs hnd hbd hfl hperm
    have hv : (u, v) ∈ edges := hvs v (List.mem_cons_self v vs)
    have hvN : v < N := (hedges _ hv).2
    have hG2 : ∀ g ∈ u :: G, Relation.TransGen (edgeRel edges) g v := by
      intro g hg
      rcases List.mem_cons.1 hg with hgu | hgG
      · exact hgu ▸ Relation.TransGen.single hv
      · exact Relation.TransGen.tail (hG g hgG) hv
    obtain ⟨h1nd, h1bd, h1perm, h1mem, h1ord⟩ :=
      hf v (u :: G) B vis hvN hnd hbd hfl hperm hG2
    have hlen1 : vis.length ≤ (f vis v).1.length := by
      have hl := h1perm.length_eq
      rw [List.length_append] at hl
      omega
    have hperm1 : (f vis v).1.Perm ((u :: G) ++ ((f vis v).2 ++ B)) := by
      refine h1perm.trans ?_
      refine (List.Perm.append_left (f vis v).2 hperm).trans ?_
      rw [← List.append_assoc, ← List.append_assoc]
      exact List.Perm.append_right B List.perm_append_comm
    obtain ⟨h2nd, h2bd, h2perm, h2mem, h2ord⟩ :=
      ih ((f vis v).2 ++ B) (f vis v).1
        (fun s hs => hvs s (List.mem_cons_of_mem v hs))
        h1nd h1bd (by omega) hperm1
    have hred : dfsStep f vis (v :: vs)
        = ((dfsStep f (f vis v).1 vs).1,
           (f vis v).2 ++ (dfsStep f (f vis v).1 vs).2) := rfl
    rw [hred]
    refine ⟨h2nd, h2bd, ?_, ?_, ?_⟩
    · refine h2perm.trans ?_
      refine (List.Perm.append_left (dfsStep f (f vis v).1 vs).2 h1perm).trans ?_
      rw [← List.append_assoc]
      exact List.Perm.append_right vis List.perm_append_comm
    · intro s hs
      rcases List.mem_cons.1 hs with hsv | hsvs
      · refine h2perm.mem_iff.2 ?_
        exact List.mem_append_right _ (hsv ▸ h1mem)
      · exact h2mem s hsvs
    · intro d hd s hs
      rcases List.mem_append.1 hd with hd1 | hd2
      · rcases h1ord d hd1 s hs with hB | hbef
        · exact Or.inl hB
        · exact Or.inr (before_append_right s d _ _ hbef)
      · rcases h2ord d hd2 s hs with hB2 | hbef
        · rcases List.mem_append.1 hB2 with hout1 | hB
          · exact Or.inr (before_of_mem_append s d _ _ hout1 hd2)
          · exact Or.inl hB
        · exact Or.inr (before_append_left s d _ _ hbef)

/-- Soundness of the depth-first post-order traversal on an acyclic
graph: with fuel covering every node, the visited list collects exactly
the emitted nodes, the start node is visited, and every emitted node's
successors are already black at call time or emitted strictly earlier
(post-order). -/
theorem dfsPost_sound (edges : List (Nat × Nat)) (N : Nat)
    (hacyc : Acyclic edges)
    (hedges : ∀ e ∈ edges, e.1 < N ∧ e.2 < N) :
    ∀ (fuel : Nat) (u : Nat) (G B vis : List Nat), u < N →
      vis.Nodup → (∀ v ∈ vis, v < N) → N + 1 ≤ fuel + vis.length →
      vis.Perm (G ++ B) →
      (∀ g ∈ G, Relation.TransGen (edgeRel edges) g u) →
      (dfsPost edges fuel vis u).1.Nodup ∧
        (∀ v ∈ (dfsPost edges fuel vis u).1, v < N) ∧
        (dfsPost edges fuel vis u).1.Perm ((dfsPost edges fuel vis u).2 ++ vis) ∧
        u ∈ (dfsPost edges fuel vis u).1 ∧
        (∀ d ∈ (dfsPost edges fuel vis u).2, ∀ s ∈ succs edges d,
          s ∈ B ∨ before s d (dfsPost edges fuel vis u).2) := by
  intro fuel
  induction fuel with
  | zero =>
    intro u G B vis hu hnd hbd hfl hperm hG
    exfalso
    have h1 : vis.toFinset.card = vis.length := List.toFinset_card_of_nodup hnd
    have h2 : vis.toFinset ⊆ Finset.range N := by
      intro x hx
      exact Finset.mem_range.2 (hbd x (List.mem_toFinset.1 hx))
    have h3 := Finset.card_le_card h2
    rw [h1, Finset.card_range] at h3
    omega
  | succ fuel ih =>
    intro u G B vis hu hnd hbd hfl hperm hG
    by_cases hmem : u ∈ vis
    · have hred : dfsPost edges (fuel + 1) vis u = (vis, []) := by
        rw [dfsPost, if_pos hmem]
      rw [hred]
      refine ⟨hnd, hbd, List.Perm.refl vis, hmem, ?_⟩
      intro d hd
      cases hd
    · have hred : dfsPost edges (fuel + 1) vis u
          = ((dfsStep (dfsPost edges fuel) (u :: vis) (succs edges u)).1,
             (dfsStep (dfsPost edges fuel) (u :: vis) (succs edges u)).2 ++ [u]) := by
        rw [dfsPost, if_neg hmem]
      rw [hred]
      have hnd1 : (u :: vis).Nodup := List.nodup_cons.2 ⟨hmem, hnd⟩
      have hbd1 : ∀ v ∈ u :: vis, v < N := by
        intro v hv
        rcases List.mem_cons.1 hv with h | h
        · exact h ▸ hu
        · exact hbd v h
      have hfl1 : N + 1 ≤ fuel + (u :: vis).length := by
        simp only [List.length_cons]
        omega
      have hperm1 : (u :: vis).Perm ((u :: G) ++ B) := hperm.cons u
      obtain ⟨H1, H2, H3, H4, H5⟩ :=
        dfsStep_sound edges N fuel u G (dfsPost edges fuel) ih hu hedges hG
          (succs edges u) B (u :: vis)
          (fun s hs => (mem_succs edges u s).1 hs)
          hnd1 hbd1 hfl1 hperm1
      have hce : ((dfsStep (dfsPost edges fuel) (u :: vis) (succs edges u)).2 ++ [u]) ++ vis
          = (dfsStep (dfsPost edges fuel) (u :: vis) (succs edges u)).2 ++ u :: vis := by
        rw [List.append_assoc]
        rfl
      refine ⟨H1, H2, ?_, ?_, ?_⟩
      · rw [hce]
        exact H3
      · exact H3.mem_iff.2 (List.mem_append_right _ (List.mem_cons_self u vis))
      · intro d hd s hs
        rcases List.mem_append.1 hd with hdo | hdu
        · rcases H5 d hdo s hs with hB | hbef
          · exact Or.inl hB
          · exact Or.inr (before_append_right s d _ [u] hbef)
        · have hdu' : d = u := List.mem_singleton.1 hdu
          subst hdu'
          have hsv : s ∈ (dfsStep (dfsPost edges fuel) (d :: vis) (succs edges d)).1 :=
            H4 s hs
          have hsm := H3.mem_iff.1 hsv
          rcases List.mem_append.1 hsm with hso | hsv2
          · exact Or.inr ⟨_, [], rfl, hso⟩
          · rcases List.mem_cons.1 hsv2 with hsu | hsvis
            · exfalso
              have hloop : (d, d) ∈ edges := hsu ▸ (mem_succs edges d s).1 hs
              exact hacyc d (Relation.TransGen.single hloop)
            · have hGB : s ∈ G ++ B := hperm.mem_iff.1 hsvis
              rcases List.mem_append.1 hGB with hsG | hsB
              · exfalso
                have hpath : Relation.TransGen (edgeRel edges) s d := hG s hsG
                have hback : (d, s) ∈ edges := (mem_succs edges d s).1 hs
                exact hacyc s (Relation.TransGen.tail hpath hback)
              · exact Or.inl hsB

/-- In a map with duplicate-free keys, a key determines its value. -/
theorem assoc_val_unique {α β : Type} (m : List (α × β))
    (hkeys : (m.map Prod.fst).Nodup) (k : α) (a b : β)
    (ha : (k, a) ∈ m) (hb : (k, b) ∈ m) : a = b := by
  induction m with
  | nil => cases ha
  | cons p rest ih =>
    rw [List.map_cons, List.nodup_cons] at hkeys
    rcases List.mem_cons.1 ha with ha1 | ha2
    · rcases List.mem_cons.1 hb with hb1 | hb2
      · simpa using ha1.trans hb1.symm
      · exfalso
        have hpk : p.1 = k := by rw [← ha1]
        exact hkeys.1 (hpk ▸ List.mem_map.2 ⟨(k, b), hb2, rfl⟩)
    · rcases List.mem_cons.1 hb with hb1 | hb2
      · exfalso
        have hpk : p.1 = k := by rw [← hb1]
        exact hkeys.1 (hpk ▸ List.mem_map.2 ⟨(k, a), ha2, rfl⟩)
      · exact ih hkeys.2 ha2 hb2

/-- Reverse lookup on a cons cell. -/
theorem lookupByRight_cons (p : ExternalIdentifier × Nat)
    (rest : List (ExternalIdentifier × Nat)) (i : Nat) :
    lookupByRight (p :: rest) i
      = if p.2 == i then some p.1 else lookupByRight rest i := by
  simp only [lookupByRight, List.find?_cons]
  cases hp : (p.2 == i) <;> simp [hp]

/-- A successful reverse lookup exhibits a pair of the map. -/
theorem lookupByRight_mem (m : List (ExternalIdentifier × Nat)) (i : Nat)
    (k : ExternalIdentifier) (h : lookupByRight m i = some k) : (k, i) ∈ m := by
  induction m with
  | nil => cases h
  | cons p rest ih =>
    rw [lookupByRight_cons] at h
    by_cases hp : (p.2 == i) = true
    · rw [if_pos hp] at h
      have h1 : p.1 = k := Option.some.inj h
      have h2 : p.2 = i := beq_iff_eq.1 hp
      have hpe : p = (k, i) := by
        rw [← h1, ← h2]
      exact hpe ▸ List.mem_cons_self p rest
    · rw [if_neg hp] at h
      exact List.mem_cons_of_mem p (ih h)

/-- With duplicate-free node indices, reverse lookup finds the unique
pair carrying the index. -/
theorem lookupByRight_eq_of_mem (m : List (ExternalIdentifier × Nat))
    (hids : (m.map Prod.snd).Nodup) (k : ExternalIdentifier) (i : Nat)
    (h : (k, i) ∈ m) : lookupByRight m i = some k := by
  induction m with
  | nil => cases h
  | cons p rest ih =>
    rw [List.map_cons, List.nodup_cons] at hids
    rw [lookupByRight_cons]
    rcases List.mem_cons.1 h with h1 | h2
    · rw [← h1]
      simp
    · have hpi : ¬(p.2 == i) = true := by
        simp only [beq_iff_eq]
        intro he
        exact hids.1 (he ▸ List.mem_map.2 ⟨(k, i), h2, rfl⟩)
      rw [if_neg hpi]
      exact ih hids.2 h2

/-- `indexOf` looks only at the left block when the element is
there. -/
theorem indexOf_append_mem {α : Type} [BEq α] [LawfulBEq α] (a : α) :
    ∀ (l1 l2 : List α), a ∈ l1 → (l1 ++ l2).indexOf a = l1.indexOf a := by
  intro l1
  induction l1 with
  | nil =>
    intro l2 h
    cases h
  | cons b l1 ih =>
    intro l2 h
    rw [List.cons_append, List.indexOf_cons, List.indexOf_cons]
    cases hba : (b == a) with
    | true => rfl
    | false =>
      have hmem : a ∈ l1 := by
        rcases List.mem_cons.1 h with h1 | h1
        · exact absurd (beq_iff_eq.2 h1.symm) (by rw [hba]; decide)
        · exact h1
      simp only [cond_false]
      rw [ih l2 hmem]

/-- `indexOf` skips a block not containing the element. -/
theorem indexOf_append_not_mem {α : Type} [BEq α] [LawfulBEq α] (a : α) :
    ∀ (l1 l2 : List α), a ∉ l1 →
      (l1 ++ l2).indexOf a = l1.length + l2.indexOf a := by
  intro l1
  induction l1 with
  | nil =>
    intro l2 _
    simp
  | cons b l1 ih =>
    intro l2 h
    have hba : (b == a) = false := by
      cases hba : (b == a) with
      | true => exact absurd (List.mem_cons_self b l1) ((eq_of_beq hba).symm ▸ h)
      | false => rfl
    rw [List.cons_append, List.indexOf_cons, hba, List.length_cons]
    simp only [cond_false]
    rw [ih l2 (fun hm => h (List.mem_cons_of_mem b hm))]
    omega

/-- Filtering on definedness of the partial map is absorbed by
`filterMap`. -/
theorem filterMap_filter_isSome {α β : Type} (g : α → Option β) (l : List α) :
    (l.filter (fun a => (g a).isSome)).filterMap g = l.filterMap g := by
  induction l with
  | nil => rfl
  | cons a l ih =>
    cases hg : g a with
    | none => simp [List.filter_cons, List.filterMap_cons, hg, ih]
    | some b => simp [List.filter_cons, List.filterMap_cons, hg, ih]

/-- `outputKeys` carries exactly the emitted declarations: mapping the
store over it recovers the emitted tail of the translation unit. -/
theorem outputKeys_filterMap (dag : DependencyDag)
    (store : List (ExternalIdentifier × String)) (wanted : List String) :
    (outputKeys dag store wanted).filterMap (fun k => eiGet store k)
      = (into_dependencies dag
          (wanted.map ExternalIdentifier.functionDefinition)).filterMap
          (fun k => eiGet store k) :=
  filterMap_filter_isSome _ _

/-- One `into_dependencies` fold step preserves the root-extension
invariant. -/
theorem dagInv_step (dag : DependencyDag) (root : Nat) (d : DependencyDag)
    (w : ExternalIdentifier) (h : DagInv dag root d) :
    DagInv dag root
      (let (id, d2) := symbol_to_id d w
       { d2 with edges := d2.edges ++ [(root, id)] }) := by
  show DagInv dag root
    { (symbol_to_id d w).2 with
      edges := (symbol_to_id d w).2.edges ++ [(root, (symbol_to_id d w).1)] }
  cases hfind : d.symbol_map.find? (fun p => decide (p.1 = w)) with
  | some p =>
    have hsym : symbol_to_id d w = (p.2, d) := by
      unfold symbol_to_id
      rw [hfind]
    rw [hsym]
    dsimp only
    have hpmem : p ∈ d.symbol_map := List.mem_of_find?_eq_some hfind
    refine ⟨h.smExt, h.keysNodup, h.idsNodup, h.smBound, h.rootLt, ?_, ?_⟩
    · intro e he
      rcases List.mem_append.1 he with he1 | he2
      · exact h.edgesChar e he1
      · have hee : e = (root, p.2) := List.mem_singleton.1 he2
        subst hee
        exact ⟨h.rootLt, (h.smBound p hpmem).1, (h.smBound p hpmem).2, Or.inl rfl⟩
    · intro e he
      exact List.mem_append_left _ (h.edgesSub e he)
  | none =>
    have hsym : symbol_to_id d w
        = (d.nodeCount,
           { d with
             nodeCount := d.nodeCount + 1
             symbol_map := d.symbol_map ++ [(w, d.nodeCount)] }) := by
      unfold symbol_to_id
      rw [hfind]
    rw [hsym]
    dsimp only
    have hfresh : ∀ p ∈ d.symbol_map, p.1 ≠ w := by
      intro p hp
      have := List.find?_eq_none.1 hfind p hp
      simpa using this
    refine ⟨?_, ?_, ?_, ?_, ?_, ?_, ?_⟩
    · obtain ⟨ext, hext⟩ := h.smExt
      exact ⟨ext ++ [(w, d.nodeCount)], by rw [hext, List.append_assoc]⟩
    · rw [List.map_append]
      refine List.Nodup.append h.keysNodup (List.nodup_singleton w) ?_
      intro x hx hw
      rcases List.mem_map.1 hx with ⟨p, hp, hpx⟩
      simp only [List.map_cons, List.map_nil, List.mem_singleton] at hw
      exact hfresh p hp (by rw [hpx, hw])
    · rw [List.map_append]
      refine List.Nodup.append h.idsNodup (List.nodup_singleton _) ?_
      intro x hx hw
      rcases List.mem_map.1 hx with ⟨p, hp, hpx⟩
      simp only [List.map_cons, List.map_nil, List.mem_singleton] at hw
      have := (h.smBound p hp).1
      omega
    · intro p hp
      rcases List.mem_append.1 hp with hp1 | hp2
      · have := h.smBound p hp1
        have hr := h.rootLt
        exact ⟨by show p.2 < d.nodeCount + 1; omega, this.2⟩
      · have hpe : p = (w, d.nodeCount) := List.mem_singleton.1 hp2
        subst hpe
        have hr := h.rootLt
        exact ⟨by show d.nodeCount < d.nodeCount + 1; omega,
               by show d.nodeCount ≠ root; omega⟩
    · show root < d.nodeCount + 1
      have := h.rootLt
      omega
    · intro e he
      rcases List.mem_append.1 he with he1 | he2
      · have := h.edgesChar e he1
        exact ⟨by show e.1 < d.nodeCount + 1; omega,
               by show e.2 < d.nodeCount + 1; omega, this.2.2.1, this.2.2.2⟩
      · have hee : e = (root, d.nodeCount) := List.mem_singleton.1 he2
        subst hee
        have hr := h.rootLt
        exact ⟨by show root < d.nodeCount + 1; omega,
               by show d.nodeCount < d.nodeCount + 1; omega,
               by show d.nodeCount ≠ root; omega, Or.inl rfl⟩
    · intro e he
      exact List.mem_append_left _ (h.edgesSub e he)

/-- The whole `into_dependencies` fold preserves the root-extension
invariant. -/
theorem dagInv_foldl (dag : DependencyDag) :
    ∀ (ws : List ExternalIdentifier) (d : DependencyDag),
      DagInv dag dag.nodeCount d →
      DagInv dag dag.nodeCount (ws.foldl
        (fun d w =>
          let (id, d2) := symbol_to_id d w
          { d2 with edges := d2.edges ++ [(dag.nodeCount, id)] }) d) := by
  intro ws
  induction ws with
  | nil =>
    intro d h
    exact h
  | cons w ws ih =>
    intro d h
    exact ih _ (dagInv_step dag dag.nodeCount d w h)

/-- The root-extended graph of a well-formed dependency graph satisfies
the root-extension invariant. -/
theorem rootedDag_inv (dag : DependencyDag) (wanted : List ExternalIdentifier)
    (hkeys : (dag.symbol_map.map Prod.fst).Nodup)
    (hids : (dag.symbol_map.map Prod.snd).Nodup)
    (hbound : ∀ p ∈ dag.symbol_map, p.2 < dag.nodeCount)
    (hedgesB : ∀ e ∈ dag.edges, e.1 < dag.nodeCount ∧ e.2 < dag.nodeCount) :
    DagInv dag dag.nodeCount (rootedDag dag wanted) := by
  refine dagInv_foldl dag wanted _ ?_
  refine ⟨⟨[], (List.append_nil _).symm⟩, hkeys, hids, ?_, Nat.lt_succ_self _, ?_, ?_⟩
  · intro p hp
    have := hbound p hp
    exact ⟨by show p.2 < dag.nodeCount + 1; omega,
           by show p.2 ≠ dag.nodeCount; omega⟩
  · intro e he
    have := hedgesB e he
    refine ⟨by show e.1 < dag.nodeCount + 1; omega,
            by show e.2 < dag.nodeCount + 1; omega,
            by show e.2 ≠ dag.nodeCount; omega, Or.inr ?_⟩
    rw [Prod.mk.eta]
    exact he
  · intro e he
    exact he

/-- Extending an acyclic graph with a fresh root that only emits edges
keeps it acyclic. -/
theorem acyclic_extended (dag : DependencyDag) (root : Nat) (d : DependencyDag)
    (hinv : DagInv dag root d) (hacyc : Acyclic dag.edges) : Acyclic d.edges := by
  have hedge : ∀ a b : Nat, edgeRel d.edges a b →
      b ≠ root ∧ (a = root ∨ edgeRel dag.edges a b) := by
    intro a b hab
    have := hinv.edgesChar (a, b) hab
    exact ⟨this.2.2.1, this.2.2.2⟩
  have key : ∀ x y : Nat, Relation.TransGen (edgeRel d.edges) x y → x ≠ root →
      Relation.TransGen (edgeRel dag.edges) x y := by
    intro x y h
    induction h using Relation.TransGen.head_induction_on with
    | base h1 =>
      intro hx
      rcases (hedge _ _ h1).2 with hr | ho
      · exact absurd hr hx
      · exact Relation.TransGen.single ho
    | ih h1 h2 ih =>
      intro hx
      rcases (hedge _ _ h1).2 with hr | ho
      · exact absurd hr hx
      · exact Relation.TransGen.head ho (ih (hedge _ _ h1).1)
  intro n hn
  obtain ⟨m, _, hlast⟩ := Relation.TransGen.tail'_iff.1 hn
  exact hacyc n (key n n hn (hedge m n hlast).1)

/-- C4 (amended: the promise holds only on acyclic graphs): the
minifying unit's output is the static declarations in insertion order
followed by the stored declarations among the post-order traversal from
the synthetic root, and — provided the dependency graph is acyclic and
well formed (in-range, duplicate-free symbol map and edges, which the
construction maintains) — every declaration with an incoming edge from
an emitted declaration either precedes it in the output or was never
declared. -/
theorem min_unit_output_ordering (statics : List String)
    (store : List (ExternalIdentifier × String)) (dag : DependencyDag)
    (wanted : List String)
    (hkeys : (dag.symbol_map.map Prod.fst).Nodup)
    (hids : (dag.symbol_map.map Prod.snd).Nodup)
    (hbound : ∀ p ∈ dag.symbol_map, p.2 < dag.nodeCount)
    (hedgesB : ∀ e ∈ dag.edges, e.1 < dag.nodeCount ∧ e.2 < dag.nodeCount)
    (hacyc : Acyclic dag.edges) :
    into_translation_unit statics store dag wanted
        = statics ++ (outputKeys dag store wanted).filterMap (fun k => eiGet store k)
      ∧ claimOrderingC4 dag store wanted := by
  constructor
  · show statics ++ (into_dependencies dag
        (wanted.map ExternalIdentifier.functionDefinition)).filterMap
        (fun k => eiGet store k) = _
    rw [outputKeys_filterMap]
  · intro e he p hp q hq hpe hqe hpo hqs
    obtain ⟨D2, hD2⟩ : ∃ D2, rootedDag dag
        (wanted.map ExternalIdentifier.functionDefinition) = D2 := ⟨_, rfl⟩
    have hinv : DagInv dag dag.nodeCount D2 :=
      hD2 ▸ rootedDag_inv dag _ hkeys hids hbound hedgesB
    have hacyc2 : Acyclic D2.edges :=
      acyclic_extended dag dag.nodeCount D2 hinv hacyc
    have hedges2 : ∀ e2 ∈ D2.edges, e2.1 < D2.nodeCount ∧ e2.2 < D2.nodeCount := by
      intro e2 he2
      exact ⟨(hinv.edgesChar e2 he2).1, (hinv.edgesChar e2 he2).2.1⟩
    obtain ⟨Hnd, _, Hperm, _, Hord⟩ :=
      dfsPost_sound D2.edges D2.nodeCount hacyc2 hedges2 (D2.nodeCount + 1)
        dag.nodeCount [] [] [] hinv.rootLt List.nodup_nil
        (fun v hv => absurd hv (List.not_mem_nil v))
        (by simp)
        (List.Perm.refl [])
        (fun g hg => absurd hg (List.not_mem_nil g))
    have hID : into_dependencies dag (wanted.map ExternalIdentifier.functionDefinition)
        = (dfsPost D2.edges (D2.nodeCount + 1) [] dag.nodeCount).2.filterMap
            (fun i => lookupByRight D2.symbol_map i) := by
      rw [← hD2]
      rfl
    obtain ⟨post, hpost⟩ :
        ∃ l, (dfsPost D2.edges (D2.nodeCount + 1) [] dag.nodeCount).2 = l := ⟨_, rfl⟩
    rw [hpost] at Hperm Hord hID
    have postNodup : post.Nodup := by
      have h1 := Hperm.nodup_iff.1 Hnd
      rw [List.append_nil] at h1
      exact h1
    have hpo2 : p.1 ∈ (into_dependencies dag
        (wanted.map ExternalIdentifier.functionDefinition)).filter
        (fun k => (eiGet store k).isSome) := hpo
    have hpo3 := List.mem_filter.1 hpo2
    have hpID := hpo3.1
    have hshp : (eiGet store p.1).isSome = true := hpo3.2
    rw [hID] at hpID
    obtain ⟨ia, hiaPost, hiaLk⟩ := List.mem_filterMap.1 hpID
    have hpD2 : (p.1, p.2) ∈ D2.symbol_map := by
      obtain ⟨ext, hext⟩ := hinv.smExt
      rw [hext]
      refine List.mem_append_left ext ?_
      rw [Prod.mk.eta]
      exact hp
    have hmemIa : (p.1, ia) ∈ D2.symbol_map :=
      lookupByRight_mem D2.symbol_map ia p.1 hiaLk
    have hia : ia = p.2 :=
      assoc_val_unique D2.symbol_map hinv.keysNodup p.1 ia p.2 hmemIa hpD2
    have he1post : e.1 ∈ post := by
      rw [← hpe, ← hia]
      exact hiaPost
    have heD2 : (e.1, e.2) ∈ D2.edges := by
      refine hinv.edgesSub (e.1, e.2) ?_
      rw [Prod.mk.eta]
      exact he
    have hbef : before e.2 e.1 post := by
      rcases Hord e.1 he1post e.2 ((mem_succs D2.edges e.1 e.2).2 heD2) with hB | hb
      · cases hB
      · exact hb
    obtain ⟨l1, l2, hsplit, hmem12⟩ := hbef
    have hlkP : lookupByRight D2.symbol_map e.1 = some p.1 := by
      refine lookupByRight_eq_of_mem D2.symbol_map hinv.idsNodup p.1 e.1 ?_
      rw [← hpe]
      exact hpD2
    have hqD2 : (q.1, e.2) ∈ D2.symbol_map := by
      rw [← hqe]
      obtain ⟨ext, hext⟩ := hinv.smExt
      rw [hext]
      refine List.mem_append_left ext ?_
      rw [Prod.mk.eta]
      exact hq
    have hlkQ : lookupByRight D2.symbol_map e.2 = some q.1 :=
      lookupByRight_eq_of_mem D2.symbol_map hinv.idsNodup q.1 e.2 hqD2
    have he1l1 : e.1 ∉ l1 := by
      have hnd2 : (l1 ++ e.1 :: l2).Nodup := by
        rw [← hsplit]
        exact postNodup
      have h3 := List.nodup_middle.1 hnd2
      rw [List.nodup_cons] at h3
      intro hmm
      exact h3.1 (List.mem_append_left l2 hmm)
    have hout : outputKeys dag store wanted
        = (l1.filterMap (fun i => lookupByRight D2.symbol_map i)).filter
            (fun k => (eiGet store k).isSome)
          ++ p.1 ::
            (l2.filterMap (fun i => lookupByRight D2.symbol_map i)).filter
              (fun k => (eiGet store k).isSome) := by
      show (into_dependencies dag
          (wanted.map ExternalIdentifier.functionDefinition)).filter
          (fun k => (eiGet store k).isSome) = _
      rw [hID, hsplit, List.filterMap_append, List.filter_append]
      have h4 : (e.1 :: l2).filterMap (fun i => lookupByRight D2.symbol_map i)
          = p.1 :: l2.filterMap (fun i => lookupByRight D2.symbol_map i) := by
        rw [List.filterMap_cons, hlkP]
      rw [h4]
      have h5 : (p.1 :: l2.filterMap (fun i => lookupByRight D2.symbol_map i)).filter
            (fun k => (eiGet store k).isSome)
          = p.1 :: (l2.filterMap (fun i => lookupByRight D2.symbol_map i)).filter
              (fun k => (eiGet store k).isSome) := by
        simp [List.filter_cons, hshp]
      rw [h5]
    rw [hout]
    have hq1L : q.1 ∈ (l1.filterMap (fun i => lookupByRight D2.symbol_map i)).filter
        (fun k => (eiGet store k).isSome) :=
      List.mem_filter.2 ⟨List.mem_filterMap.2 ⟨e.2, hmem12, hlkQ⟩, hqs⟩
    have hp1L : p.1 ∉ (l1.filterMap (fun i => lookupByRight D2.symbol_map i)).filter
        (fun k => (eiGet store k).isSome) := by
      intro hmm
      obtain ⟨hmm1, _⟩ := List.mem_filter.1 hmm
      obtain ⟨i2, hi2, hlk2⟩ := List.mem_filterMap.1 hmm1
      have hm2 : (p.1, i2) ∈ D2.symbol_map :=
        lookupByRight_mem D2.symbol_map i2 p.1 hlk2
      have hi2p : i2 = p.2 :=
        assoc_val_unique D2.symbol_map hinv.keysNodup p.1 i2 p.2 hm2 hpD2
      rw [hi2p, hpe] at hi2
      exact he1l1 hi2
    rw [indexOf_append_mem q.1 _ _ hq1L,
        indexOf_append_not_mem p.1 _ _ hp1L, List.indexOf_cons_self]
    have h6 := List.indexOf_lt_length.2 hq1L
    omega

/-- Witness for `min_unit_output_ordering`: a three-declaration store
with the acyclic graph `main → f → g` satisfies the hypotheses (the
rank function rules out cycles) and so the amended ordering claim. -/
theorem min_unit_output_ordering_witness :
    (∀ e ∈ dagW4.edges, e.1 < dagW4.nodeCount ∧ e.2 < dagW4.nodeCount) ∧
      (into_translation_unit ["precision highp float;"] storeW4 dagW4 ["main"]
          = ["precision highp float;"] ++
            (outputKeys dagW4 storeW4 ["main"]).filterMap (fun k => eiGet storeW4 k)
        ∧ claimOrderingC4 dagW4 storeW4 ["main"]) :=
  ⟨by decide,
   min_unit_output_ordering ["precision highp float;"] storeW4 dagW4 ["main"]
     (by decide) (by decide) (by decide) (by decide)
     (acyclic_of_rank dagW4.edges
       (fun n => if n = 1 then 0 else if n = 0 then 1 else 2) (by decide))⟩

/-- Witness for `captures_sorted_nodup`: a scope capturing `x`, `y` and
the propagated parent capture `z` yields a list sorted by `symbol_id`
with pairwise distinct `gen_id`s. -/
theorem captures_sorted_nodup_witness :
    ((mergeSymbolTable stC3 pcC3).Pairwise
        (fun a b => a.2.gen_id ≠ b.2.gen_id)) ∧
      ∃ L, localScopeCaptures stC3 pcC3 tpsC3 = some L ∧
        L.Pairwise (fun a b => a.symbol_id ≤ b.symbol_id) ∧
        (L.map (fun c => c.gen_id)).Nodup :=
  ⟨by decide, captures_sorted_nodup stC3 pcC3 tpsC3 (by decide)⟩

end Glslt
